import Mathlib

/-!
# Verification of the polygo polynomial library against its specification

This file is a shallow embedding, in Lean 4, of the core of the `polygo` Go
library: dense univariate real polynomials (coefficient slices), the Sturm
chain root counter, the bisection root isolator/searcher, and the FFT-based
fast multiplication.

Modelling conventions:

* `float64` arithmetic is idealised as exact arithmetic: the computable layer
  uses `ℚ` (all concrete inputs and all branch conditions of the Go code are
  rational), and the layer that inherently involves irrational values
  (the discrete Fourier transform, the real-root bound) uses `ℝ`/`ℂ`.
* A Go slice of `float64` becomes a `List ℚ`; the library stores coefficients
  in ascending-degree order internally, as does the embedding.
* Go `panic` on invalid input is modelled with `Except Err` at the public
  entry points; internal helpers that the Go code only calls on validated
  arguments are total functions, with the guard noted in their doc comment.
* The package-global mutable settings (`epsilon` via `SetEpsilon`,
  `bisectPrecision` via `SetBisectSearchPrecision`) become explicit function
  parameters; the defaults of the source are provided as named constants.
* The go-dsp `fft.FFT`/`fft.IFFT` calls (an external dependency of
  `poly.go`) are modelled by the exact discrete Fourier transform that this
  radix-2 implementation computes in exact arithmetic.
-/

namespace Polygo

/-- Error taxonomy of the specification (§7); Go `panic`/`error` outcomes. -/
inductive Err where
  | invalidInput
  | invalidInterval
  | divisionByZero
  | infiniteSolutions
  | noSolutionInRange
  deriving DecidableEq

/-- Helper for `removeTrailingZeroes`, written on the reversed list: drops
leading zeroes while more than one element remains (`util.go`: the loop
`for s[len(s)-1] == 0 && len(s) > 1`). -/
def stripRev : List ℚ → List ℚ
  | [] => []
  | [c] => [c]
  | c :: rest => if c = 0 then stripRev rest else c :: rest

/-- `removeTrailingZeroes` from `util.go` (exact-comparison variant used by
the final `poly.go` snapshot): removes trailing zero coefficients, keeping at
least one element of a nonempty slice; the empty slice is returned as is. -/
def removeTrailingZeroes (s : List ℚ) : List ℚ :=
  (stripRev s.reverse).reverse

/-- A `Poly` stores its coefficient slice in ascending-degree order; the Go
struct's cached `len` and `deg` fields are always set to
`len coef`/`len coef - 1` and are modelled as derived functions. -/
structure Poly where
  coef : List ℚ
  deriving DecidableEq

/-- The cached `len` field of the Go struct. -/
def Poly.len (p : Poly) : ℕ := p.coef.length

/-- The cached `deg` field of the Go struct (an `int` in Go: the empty slice
yields degree `-1`). -/
def Poly.deg (p : Poly) : ℤ := (p.coef.length : ℤ) - 1

/-- `deg` as a natural number, valid for nonempty coefficient slices. -/
def Poly.degNat (p : Poly) : ℕ := p.coef.length - 1

/-- `newPolyNoReverse` from `poly.go`: strip trailing zeroes of an
ascending-degree coefficient slice. -/
def newPolyNoReverse (c : List ℚ) : Poly :=
  ⟨removeTrailingZeroes c⟩

/-- `NewPoly` from `poly.go`: the user passes coefficients in descending
order; they are reversed and stripped.  (Go panics on an empty slice; the
embedding is only applied to nonempty slices.) -/
def NewPoly (c : List ℚ) : Poly :=
  newPolyNoReverse c.reverse

/-- `NewPolyZero`. -/
def NewPolyZero : Poly := ⟨[0]⟩

/-- `Poly.IsZero`: degree 0 and constant coefficient 0. -/
def Poly.IsZero (p : Poly) : Prop := p.deg = 0 ∧ p.coef.getD 0 0 = 0

instance : DecidablePred Poly.IsZero := fun p => by
  unfold Poly.IsZero; infer_instance

/-- `Poly.IsConstant`: degree 0. -/
def Poly.IsConstant (p : Poly) : Prop := p.deg = 0

instance : DecidablePred Poly.IsConstant := fun p => by
  unfold Poly.IsConstant; infer_instance

/-- `Poly.At`: Horner evaluation `out = out*x + coef[i]`, descending `i`.
For the (invalid) empty slice Go would panic; the fold returns 0. -/
def Poly.At (p : Poly) (x : ℚ) : ℚ :=
  p.coef.foldr (fun c acc => acc * x + c) 0

/-- `Poly.LeadingCoefficient`: `coef[deg]`. -/
def Poly.LeadingCoefficient (p : Poly) : ℚ := p.coef.getD p.degNat 0

/-- `Poly.Derivative`: the derivative of a constant is `NewPoly [0]`;
otherwise coefficient `i` of the result is `coef[i+1] * (i+1)`. -/
def Poly.Derivative (p : Poly) : Poly :=
  if p.deg = 0 then NewPoly [0]
  else newPolyNoReverse ((List.range p.degNat).map fun i => p.coef.getD (i + 1) 0 * (i + 1))

/-- `Poly.MulScalar`: `0 * p = NewPoly [0]`; otherwise scale term-wise and
strip. -/
def Poly.MulScalar (p : Poly) (s : ℚ) : Poly :=
  if s = 0 then NewPoly [0]
  else newPolyNoReverse (p.coef.map fun c => s * c)

/-- `Poly.Equal` from `poly.go`, verbatim: degrees must match, and the loop
body reads `if p.coef[i] == q.coef[i] { return false }` — it returns `false`
as soon as a pair of corresponding coefficients is EQUAL. -/
def Poly.Equal (p q : Poly) : Bool :=
  if p.deg ≠ q.deg then false
  else decide (∀ i ∈ Finset.range p.len, ¬ p.coef.getD i 0 = q.coef.getD i 0)

/-- `equalRel` from `util.go` (variant used by `poly.go`): relative error
with the smaller magnitude as denominator. -/
def equalRel (a b eps : ℚ) : Prop :=
  a = b ∨ |a - b| / min |a| |b| ≤ eps

instance (a b eps : ℚ) : Decidable (equalRel a b eps) := by
  unfold equalRel; infer_instance

/-- `Poly.EqualRel` from `poly.go`, verbatim: again the loop body is
`if equalRel(...) { return false }`, returning `false` as soon as a pair of
corresponding coefficients IS approximately equal. -/
def Poly.EqualRel (p q : Poly) (maxPercentErr : ℚ) : Bool :=
  if p.deg ≠ q.deg then false
  else decide (∀ i ∈ Finset.range p.len, ¬ equalRel (p.coef.getD i 0) (q.coef.getD i 0) maxPercentErr)

/-- Inner update of the synthetic-division loop of `Poly.Div`: subtract
`qtail[j] * c` from the `j`-th of the next entries (Go:
`quoRemCoef[i+j] += -qRev[j] * c` for `j = 1 .. q.len-1`; the `c != 0` skip
in Go is a pure optimisation with the same result). -/
def axpyNeg (c : ℚ) : List ℚ → List ℚ → List ℚ
  | _, [] => []
  | [], rest => rest
  | t :: ts, r :: rs => (r - t * c) :: axpyNeg c ts rs

/-- Main loop of `Poly.Div` (expanded synthetic division on the
descending-order slice `quoRemCoef`): for `sep` steps, divide the current
entry by the divisor's leading coefficient and fold the scaled divisor tail
into the following entries.  The returned list is the final `quoRemCoef`:
quotient entries first, then the remainder entries. -/
def synDiv (lead : ℚ) (qtail : List ℚ) : ℕ → List ℚ → List ℚ
  | 0, st => st
  | _ + 1, [] => []
  | k + 1, c :: rest =>
      c / lead :: synDiv lead qtail k (axpyNeg (c / lead) qtail rest)

/-- `Poly.Div` without the zero-divisor panic branch (the Go code reaches
this code only after `q.IsZero()` has been ruled out).  Branches: dividing
zero gives `(0, 0)`; a dividend of smaller degree gives `(0, p)`; otherwise
run the synthetic division on the reversed (descending) slices and split the
result at `sep = p.len - q.len + 1`. -/
def divCore (p q : Poly) : Poly × Poly :=
  if p.IsZero then (NewPolyZero, NewPolyZero)
  else if p.deg < q.deg then (NewPolyZero, p)
  else
    let pRev := p.coef.reverse
    let qRev := q.coef.reverse
    let lead := qRev.getD 0 0
    let sep := p.len - q.len + 1
    let res := synDiv lead (qRev.drop 1) sep pRev
    (newPolyNoReverse (res.take sep).reverse, newPolyNoReverse (res.drop sep).reverse)

/-- `Poly.Div` from `poly.go`: panics (here: fails) with division by zero
for a zero divisor, otherwise returns the quotient/remainder pair. -/
def Poly.Div (p q : Poly) : Except Err (Poly × Poly) :=
  if q.IsZero then .error .divisionByZero else .ok (divCore p q)

/-- Default value of the package-global `epsilon` (`util.go`): `1e-5`.
The global is mutable through `SetEpsilon` (any non-negative value); it is
modelled as an explicit parameter `eps` below. -/
def epsilon0 : ℚ := 1 / 100000

/-- `approxEqual` from `util.go`: equal, or absolute error at most `eps`,
or relative error `|a-b| / (|a|+|b|)` at most `eps`. -/
def approxEqual (eps a b : ℚ) : Prop :=
  a = b ∨ |a - b| ≤ eps ∨ |a - b| / (|a| + |b|) ≤ eps

instance (eps a b : ℚ) : Decidable (approxEqual eps a b) := by
  unfold approxEqual; infer_instance

/-- `sign` from `util.go` (the `approxEqual`-based variant used by the Sturm
counter): 0 for values approximately equal to 0, else the strict sign. -/
def sign (eps a : ℚ) : ℤ :=
  if approxEqual eps a 0 then 0 else if 0 < a then 1 else -1

/-- `countSignVariations` from `solver.go` (old API), which is also the
counting rule stated by the specification: filter exact zeroes out, then
count adjacent pairs with a negative product. -/
def countSignVariations (s : List ℚ) : ℕ :=
  let filtered := s.filter (fun v => ¬ v = 0)
  (filtered.zip filtered.tail).countP (fun pr => decide (pr.1 * pr.2 < 0))

/-- Transition counter of `sturmChain.count` (`sturm.go`): one pass over the
sign sequence, counting positions where the sign changes and the previous
sign was nonzero. -/
def countTransitions : List ℤ → ℕ
  | [] => 0
  | [_] => 0
  | a :: b :: rest => (if b ≠ a ∧ a ≠ 0 then 1 else 0) + countTransitions (b :: rest)

/-- `sturmChain.count` from `sturm.go`: for a one-element chain the count is
0; otherwise count sign-change transitions of the chain values at `a` and at
`b` and return their difference, clamped below at 0 (the "hacky fix" for
multiple roots).  The Go panic for `a > b` is omitted here; every use is
guarded by `a ≤ b`. -/
def sturmCount (eps : ℚ) (chain : List Poly) (a b : ℚ) : ℤ :=
  if chain.length = 1 then 0
  else
    let va := countTransitions (chain.map fun c => sign eps (c.At a))
    let vb := countTransitions (chain.map fun c => sign eps (c.At b))
    if (va : ℤ) - vb < 0 then 0 else (va : ℤ) - vb

/-- Tail of the Sturm chain construction of `new_sturmChain` (`sturm.go`):
while the last element is not constant, append `-(rem(prev, curr))`.  The
fuel mirrors the Go slice allocation of `deg+1` entries (running past it
would panic in Go; with exact arithmetic the degree strictly decreases, so
the fuel is never exhausted). -/
def chainExt (fuel : ℕ) (prev curr : Poly) : List Poly :=
  if curr.IsConstant then []
  else match fuel with
    | 0 => []
    | f + 1 =>
        let nxt := (divCore prev curr).2.MulScalar (-1)
        nxt :: chainExt f curr nxt

/-- `new_sturmChain` from `sturm.go`: a constant polynomial yields the
one-element chain; otherwise seed with `p, p'` and extend by negated
remainders until a constant appears. -/
def new_sturmChain (p : Poly) : List Poly :=
  if p.deg = 0 then [p]
  else p :: p.Derivative :: chainExt p.len p p.Derivative

/-- `Solver.CountRootsWithin` (with `ALG_COUNT_STURM`, the only counting
algorithm): count via the Sturm chain of `p`.  The per-solver chain cache is
keyed by a content hash and modelled as transparent recomputation. -/
def CountRootsWithin (eps : ℚ) (p : Poly) (a b : ℚ) : ℤ :=
  sturmCount eps (new_sturmChain p) a b

/-- The value that C1 claims `CountRootsWithin` computes: evaluate every
chain polynomial at each endpoint, apply the exact-zero-filtering
`countSignVariations`, and subtract (no clamping). -/
def claimedCount (p : Poly) (a b : ℚ) : ℤ :=
  let chain := new_sturmChain p
  (countSignVariations (chain.map fun c => c.At a) : ℤ) -
    (countSignVariations (chain.map fun c => c.At b) : ℤ)

/-- `HalfOpenInterval` from `sturm.go`. -/
structure HalfOpenInterval where
  L : ℚ
  R : ℚ
  deriving DecidableEq

/-- `Solver.IsolateRootsWithin` (with `ALG_ISOLATE_BISECT`): count roots; 0
gives the empty partition, 1 gives `(a, b]`, otherwise recurse on the two
halves around the midpoint and concatenate.  The Go recursion has no
termination guarantee, so the embedding uses explicit fuel, `none` marking a
computation that has not terminated within the given recursion depth. -/
def IsolateRootsWithin (eps : ℚ) (p : Poly) : ℕ → ℚ → ℚ → Option (List HalfOpenInterval)
  | 0, _, _ => none
  | fuel + 1, a, b =>
      let c := CountRootsWithin eps p a b
      if c = 0 then some []
      else if c = 1 then some [⟨a, b⟩]
      else
        let m := 1 / 2 * (a + b)
        match IsolateRootsWithin eps p fuel a m, IsolateRootsWithin eps p fuel m b with
        | some l, some r => some (l ++ r)
        | _, _ => none

/-- Default value of the package-global `bisectPrecision` (`solver.go`):
`1e-6`; mutable through `SetBisectSearchPrecision` and therefore modelled as
an explicit parameter `prec`. -/
def bisectPrecision0 : ℚ := 1 / 1000000

/-- `solve_bisect` from `solver.go`: starting from the zero-initialised
local `mid`, while `right - left > prec` step into whichever half the
counter reports to hold the single root, and finally return `mid`.  The loop
halves the width each iteration, so it terminates exactly when `prec > 0`
(hypothesis `hp`); for `prec ≤ 0` the Go loop would not terminate on exact
values. -/
def solve_bisect (counter : Poly → ℚ → ℚ → ℤ) (p : Poly) (prec : ℚ) (hp : 0 < prec)
    (left right mid : ℚ) : ℚ :=
  if h : prec < right - left then
    let m := 1 / 2 * (left + right)
    if counter p left m = 1 then solve_bisect counter p prec hp left m m
    else solve_bisect counter p prec hp m right m
  else mid
  termination_by (⌈(right - left) / prec⌉).toNat
  decreasing_by
  all_goals
    have h1 : (1 : ℚ) < (right - left) / prec := (one_lt_div hp).mpr h
    have key : (⌈((right - left) / 2) / prec⌉).toNat < (⌈(right - left) / prec⌉).toNat := by
      have hx : ((right - left) / 2) / prec = ((right - left) / prec) / 2 := by ring
      rw [hx]
      set x : ℚ := (right - left) / prec
      have h2 : 1 < ⌈x⌉ := Int.lt_ceil.mpr (by exact_mod_cast h1)
      have hle : (x / 2 : ℚ) ≤ ((⌈x⌉ - 1 : ℤ) : ℚ) := by
        have hxle : (x : ℚ) ≤ ((⌈x⌉ : ℤ) : ℚ) := Int.le_ceil x
        have h2q : (2 : ℚ) ≤ ((⌈x⌉ : ℤ) : ℚ) := by exact_mod_cast h2
        push_cast
        linarith
      have hceil : ⌈x / 2⌉ ≤ ⌈x⌉ - 1 := Int.ceil_le.mpr hle
      omega
    first
      | (have hm : 1 / 2 * (left + right) - left = (right - left) / 2 := by ring
         rw [hm]; exact key)
      | (have hm : right - 1 / 2 * (left + right) = (right - left) / 2 := by ring
         rw [hm]; exact key)

/-- `solve_linear` from `solver.go`: the root of a linear polynomial,
`-c₀ / c₁` (the interval bounds are ignored: `TODO: Check bounds a, b.`). -/
def solve_linear (p : Poly) : List ℚ :=
  [-(p.coef.getD 0 0) / p.coef.getD 1 0]

/-- `solve_quadratic` from `solver.go`: real roots by the quadratic formula;
no roots for negative discriminant, one for zero.  `math.Sqrt` has no exact
counterpart on `ℚ` and is modelled by the parameter `sqrtF`. -/
def solve_quadratic (sqrtF : ℚ → ℚ) (p : Poly) : List ℚ :=
  let c := p.coef.getD 0 0
  let negb := -(p.coef.getD 1 0)
  let a := p.coef.getD 2 0
  let d := negb * negb - 4 * a * c
  let recip := 1 / (2 * a)
  if 0 < d then [(negb + sqrtF d) * recip, (negb - sqrtF d) * recip]
  else if d = 0 then [negb * recip]
  else []

/-- `Solver.FindRootsWithin` from `solver.go` (with the default
`ALG_SEARCH_BISECT` searcher): panic (error) for `b < a`; for a constant
dividend either `InfiniteSolutions` (zero polynomial) or the empty list; for
degrees 1 and 2 the closed-form solvers (which ignore the interval); for
degree ≥ 3 isolate single-root intervals and run the bisection search on
each.  `none` propagates a non-terminating isolation (fuel exhaustion). -/
def FindRootsWithin (fuel : ℕ) (eps prec : ℚ) (hp : 0 < prec) (sqrtF : ℚ → ℚ)
    (p : Poly) (a b : ℚ) : Option (Except Err (List ℚ)) :=
  if b < a then some (.error .invalidInterval)
  else if p.deg = 0 then
    if p.coef.getD 0 0 = 0 then some (.error .infiniteSolutions)
    else some (.ok [])
  else if p.deg = 1 then some (.ok (solve_linear p))
  else if p.deg = 2 then some (.ok (solve_quadratic sqrtF p))
  else
    (IsolateRootsWithin eps p fuel a b).map fun ivs =>
      .ok (ivs.map fun h => solve_bisect (CountRootsWithin eps) p prec hp h.L h.R 0)

/-- The Cauchy bound value computed by `Poly.CauchyBound` (`solver.go`) for
a non-constant polynomial: `1 + max(|coef[i] * (1/lead)|)` over
`i = 0 .. deg-1` (a running-maximum loop seeded with the `i = 0` entry). -/
def cauchyBoundVal (p : Poly) : ℚ :=
  let leadrecip := 1 / p.coef.getD p.degNat 0
  1 + (((p.coef.take p.degNat).drop 1).map fun c => |c * leadrecip|).foldl max
        |p.coef.getD 0 0 * leadrecip|

/-- `Poly.CauchyBound`: panics (errors, `InvalidInput` in the taxonomy of
the specification) for a constant polynomial. -/
def Poly.CauchyBound (p : Poly) : Except Err ℚ :=
  if p.deg = 0 then .error .invalidInput else .ok (cauchyBoundVal p)

/-- `Solver.FindRoots` from `solver.go`: `FindRootsWithin` on
`(-B, B]` for Cauchy's bound `B`. -/
def FindRoots (fuel : ℕ) (eps prec : ℚ) (hp : 0 < prec) (sqrtF : ℚ → ℚ)
    (p : Poly) : Option (Except Err (List ℚ)) :=
  match p.CauchyBound with
  | .error e => some (.error e)
  | .ok bound => FindRootsWithin fuel eps prec hp sqrtF p (-bound) bound

/-! ## Evaluation lemmas -/

/-- Horner evaluation of an ascending-degree coefficient list over any
commutative ring (the body of `Poly.At`). -/
def hornerAsc {R : Type} [CommRing R] (l : List R) (x : R) : R :=
  l.foldr (fun c acc => acc * x + c) 0

/-- Horner evaluation of a descending-degree coefficient list (the order
used inside `Poly.Div`). -/
def hornerDesc {R : Type} [CommRing R] (l : List R) (x : R) : R :=
  l.foldl (fun acc c => acc * x + c) 0

theorem hornerAsc_cons {R : Type} [CommRing R] (c : R) (t : List R) (x : R) :
    hornerAsc (c :: t) x = hornerAsc t x * x + c := rfl

theorem hornerDesc_foldl {R : Type} [CommRing R] (l : List R) (a x : R) :
    l.foldl (fun acc c => acc * x + c) a = a * x ^ l.length + hornerDesc l x := by
  induction l generalizing a with
  | nil => simp [hornerDesc]
  | cons c t ih =>
      simp only [List.foldl_cons, List.length_cons, hornerDesc]
      rw [ih (a * x + c), ih (0 * x + c)]
      ring

theorem hornerDesc_cons {R : Type} [CommRing R] (c : R) (t : List R) (x : R) :
    hornerDesc (c :: t) x = c * x ^ t.length + hornerDesc t x := by
  have h0 : hornerDesc (c :: t) x = t.foldl (fun acc c => acc * x + c) (0 * x + c) := rfl
  rw [h0, hornerDesc_foldl t (0 * x + c) x]
  ring

theorem hornerDesc_reverse {R : Type} [CommRing R] (l : List R) (x : R) :
    hornerDesc l.reverse x = hornerAsc l x := by
  simp only [hornerDesc, hornerAsc, List.foldl_reverse]

theorem hornerAsc_reverse {R : Type} [CommRing R] (l : List R) (x : R) :
    hornerAsc l.reverse x = hornerDesc l x := by
  rw [← hornerDesc_reverse l.reverse x, List.reverse_reverse]

theorem hornerAsc_eq_sum {R : Type} [CommRing R] (l : List R) (x : R) :
    hornerAsc l x = ∑ i ∈ Finset.range l.length, l.getD i 0 * x ^ i := by
  induction l with
  | nil => simp [hornerAsc]
  | cons c t ih =>
      rw [hornerAsc_cons, ih]
      rw [List.length_cons, Finset.sum_range_succ']
      simp only [List.getD_cons_succ, List.getD_cons_zero, pow_zero, mul_one, pow_succ]
      rw [Finset.sum_mul]
      simp [mul_assoc]

theorem Poly.At_def (p : Poly) (x : ℚ) : p.At x = hornerAsc p.coef x := rfl

theorem stripRev_cons₂ (c d : ℚ) (u : List ℚ) :
    stripRev (c :: d :: u) = if c = 0 then stripRev (d :: u) else c :: d :: u := rfl

/-- Dropping leading zeroes of a descending-order list does not change its
Horner value. -/
theorem hornerDesc_stripRev (s : List ℚ) (x : ℚ) :
    hornerDesc (stripRev s) x = hornerDesc s x := by
  induction s with
  | nil => rfl
  | cons c t ih =>
      cases t with
      | nil => rfl
      | cons d u =>
          by_cases hc : c = 0
          · rw [stripRev_cons₂, if_pos hc, ih, hc]
            conv_rhs => rw [hornerDesc_cons]
            ring
          · rw [stripRev_cons₂, if_neg hc]

theorem hornerAsc_removeTrailingZeroes (s : List ℚ) (x : ℚ) :
    hornerAsc (removeTrailingZeroes s) x = hornerAsc s x := by
  rw [removeTrailingZeroes, hornerAsc_reverse, hornerDesc_stripRev, hornerDesc_reverse]

theorem At_newPolyNoReverse (c : List ℚ) (x : ℚ) :
    (newPolyNoReverse c).At x = hornerAsc c x := by
  rw [Poly.At_def, newPolyNoReverse, hornerAsc_removeTrailingZeroes]

theorem stripRev_length_le (s : List ℚ) : (stripRev s).length ≤ s.length := by
  induction s with
  | nil => simp [stripRev]
  | cons c t ih =>
      cases t with
      | nil => simp [stripRev]
      | cons d u =>
          by_cases hc : c = 0
          · rw [stripRev_cons₂, if_pos hc]
            exact ih.trans (by simp)
          · rw [stripRev_cons₂, if_neg hc]

theorem removeTrailingZeroes_length_le (s : List ℚ) :
    (removeTrailingZeroes s).length ≤ s.length := by
  rw [removeTrailingZeroes]
  calc (stripRev s.reverse).reverse.length = (stripRev s.reverse).length := by simp
    _ ≤ s.reverse.length := stripRev_length_le s.reverse
    _ = s.length := by simp

/-! ## Correctness of the synthetic division loop -/

theorem axpyNeg_length (c : ℚ) (t r : List ℚ) : (axpyNeg c t r).length = r.length := by
  induction t generalizing r with
  | nil => cases r <;> rfl
  | cons a ts ih =>
      cases r with
      | nil => rfl
      | cons b rs => simp [axpyNeg, ih]

theorem synDiv_length (lead : ℚ) (qtail : List ℚ) (k : ℕ) (st : List ℚ) :
    (synDiv lead qtail k st).length = st.length := by
  induction k generalizing st with
  | zero => rfl
  | succ k ih =>
      cases st with
      | nil => rfl
      | cons c rest => simp [synDiv, ih, axpyNeg_length]

theorem hornerDesc_axpyNeg (c : ℚ) (t r : List ℚ) (x : ℚ) (h : t.length ≤ r.length) :
    hornerDesc (axpyNeg c t r) x
      = hornerDesc r x - c * hornerDesc t x * x ^ (r.length - t.length) := by
  induction t generalizing r with
  | nil =>
      cases r with
      | nil => simp [axpyNeg, hornerDesc]
      | cons b rs => simp [axpyNeg, hornerDesc]
  | cons a ts ih =>
      cases r with
      | nil => simp at h
      | cons b rs =>
          have hlen : ts.length ≤ rs.length := by simpa using h
          have hax : axpyNeg c (a :: ts) (b :: rs) = (b - a * c) :: axpyNeg c ts rs := rfl
          rw [hax, hornerDesc_cons, axpyNeg_length, ih rs hlen]
          rw [hornerDesc_cons b rs, hornerDesc_cons a ts]
          have hsub : (b :: rs).length - (a :: ts).length = rs.length - ts.length := by
            simp
          rw [hsub]
          have hpow : x ^ ts.length * x ^ (rs.length - ts.length) = x ^ rs.length := by
            rw [← pow_add, Nat.add_sub_cancel' hlen]
          linear_combination (c * a) * hpow

theorem synDiv_spec (lead : ℚ) (hlead : lead ≠ 0) (qtail : List ℚ) (x : ℚ) :
    ∀ (k : ℕ) (st : List ℚ), st.length = k + qtail.length →
      hornerDesc st x
        = hornerDesc ((synDiv lead qtail k st).take k) x
            * (lead * x ^ qtail.length + hornerDesc qtail x)
          + hornerDesc ((synDiv lead qtail k st).drop k) x := by
  intro k
  induction k with
  | zero =>
      intro st _
      simp [synDiv, hornerDesc]
  | succ k ih =>
      intro st hst
      cases st with
      | nil => simp at hst; omega
      | cons c rest =>
          have hrest : rest.length = k + qtail.length := by simp at hst; omega
          have hres : synDiv lead qtail (k + 1) (c :: rest)
              = c / lead :: synDiv lead qtail k (axpyNeg (c / lead) qtail rest) := rfl
          set inner := synDiv lead qtail k (axpyNeg (c / lead) qtail rest) with hinner
          have hinnerlen : inner.length = k + qtail.length := by
            rw [hinner, synDiv_length, axpyNeg_length, hrest]
          have htake : (c / lead :: inner).take (k + 1) = c / lead :: inner.take k := rfl
          have hdrop : (c / lead :: inner).drop (k + 1) = inner.drop k := rfl
          rw [hres, htake, hdrop]
          have hih := ih (axpyNeg (c / lead) qtail rest)
            (by rw [axpyNeg_length, hrest])
          have haxpy := hornerDesc_axpyNeg (c / lead) qtail rest x
            (by rw [hrest]; omega)
          rw [← hinner] at hih
          have hrsub : rest.length - qtail.length = k := by omega
          rw [hrsub] at haxpy
          have htklen : (inner.take k).length = k := by
            rw [List.length_take, hinnerlen]; omega
          rw [hornerDesc_cons c rest, hornerDesc_cons (c / lead) (inner.take k), htklen, hrest]
          rw [haxpy] at hih
          have hc : c / lead * lead = c := div_mul_cancel₀ c hlead
          linear_combination hih - (x ^ k * x ^ qtail.length) * hc

/-! ## Well-formed polynomials -/

/-- The invariant established by the constructors: nonempty coefficient
slice with no trailing zero (i.e. stripping is the identity). -/
def Wf (p : Poly) : Prop := p.coef ≠ [] ∧ removeTrailingZeroes p.coef = p.coef

instance : DecidablePred Wf := fun p => by unfold Wf; infer_instance

theorem isZero_iff (p : Poly) : p.IsZero ↔ p.coef = [0] := by
  constructor
  · rintro ⟨hdeg, hc⟩
    have hlen : p.coef.length = 1 := by
      have := hdeg
      simp only [Poly.deg] at this
      omega
    obtain ⟨a, ha⟩ := List.length_eq_one.mp hlen
    rw [ha] at hc ⊢
    simpa using hc
  · intro h
    constructor
    · simp [Poly.deg, h]
    · simp [h]

theorem stripRev_fixed_head {u : List ℚ} (hfix : stripRev u = u) (hlen : 2 ≤ u.length) :
    u.getD 0 0 ≠ 0 := by
  match u, hlen with
  | c :: d :: t, _ =>
      intro hc
      rw [stripRev_cons₂, if_pos (by simpa using hc)] at hfix
      have h1 : (stripRev (d :: t)).length ≤ (d :: t).length := stripRev_length_le _
      rw [hfix] at h1
      simp at h1

/-- A well-formed nonzero polynomial has a nonzero leading coefficient. -/
theorem wf_lead_ne_zero {q : Poly} (hq : Wf q) (hz : ¬ q.IsZero) :
    q.coef.reverse.getD 0 0 ≠ 0 := by
  obtain ⟨hne, hfix⟩ := hq
  have hrevfix : stripRev q.coef.reverse = q.coef.reverse := by
    have := congrArg List.reverse hfix
    rwa [removeTrailingZeroes, List.reverse_reverse] at this
  rcases Nat.lt_or_ge q.coef.length 2 with hlt | hge
  · have hlen1 : q.coef.length = 1 := by
      have : q.coef.length ≠ 0 := fun h => hne (List.length_eq_zero.mp h)
      omega
    obtain ⟨a, ha⟩ := List.length_eq_one.mp hlen1
    intro h0
    apply hz
    rw [isZero_iff, ha]
    rw [ha] at h0
    simpa using h0
  · exact stripRev_fixed_head hrevfix (by simpa using hge)

theorem At_NewPolyZero (x : ℚ) : NewPolyZero.At x = 0 := by
  simp [NewPolyZero, Poly.At]

/-- Correctness of `divCore`: the Euclidean identity
`p = quotient * divisor + remainder` holds exactly at every point, for every
well-formed nonzero divisor. -/
theorem divCore_spec (p q : Poly) (hq : Wf q) (hz : ¬ q.IsZero) (x : ℚ) :
    p.At x = (divCore p q).1.At x * q.At x + (divCore p q).2.At x := by
  rw [divCore]
  by_cases hp0 : p.IsZero
  · rw [if_pos hp0]
    have hp : p.coef = [0] := (isZero_iff p).mp hp0
    simp [Poly.At, hp, NewPolyZero]
  · rw [if_neg hp0]
    by_cases hdeg : p.deg < q.deg
    · rw [if_pos hdeg]
      simp [At_NewPolyZero]
    · rw [if_neg hdeg]
      simp only
      have hqlen : 1 ≤ q.coef.length := by
        have h0 : q.coef.length ≠ 0 := fun h => hq.1 (List.length_eq_zero.mp h)
        omega
      have hplen : q.coef.length ≤ p.coef.length := by
        simp only [Poly.deg, not_lt] at hdeg
        omega
      set lead := q.coef.reverse.getD 0 0 with hleaddef
      have hlead : lead ≠ 0 := wf_lead_ne_zero hq hz
      set qtail := q.coef.reverse.drop 1 with hqtaildef
      set sep := p.len - q.len + 1 with hsepdef
      have hqtlen : qtail.length = q.coef.length - 1 := by
        rw [hqtaildef]; simp
      have hstlen : p.coef.reverse.length = sep + qtail.length := by
        rw [hsepdef, hqtlen]
        simp only [List.length_reverse, Poly.len]
        omega
      have hmain := synDiv_spec lead hlead qtail x sep p.coef.reverse hstlen
      set res := synDiv lead qtail sep p.coef.reverse with hresdef
      have hqcons : q.coef.reverse = lead :: qtail := by
        rcases hrev : q.coef.reverse with _ | ⟨c, t⟩
        · have : q.coef = [] := by simpa using congrArg List.reverse hrev
          exact absurd this hq.1
        · rw [hleaddef, hqtaildef, hrev]
          simp
      have hQ : lead * x ^ qtail.length + hornerDesc qtail x = q.At x := by
        rw [← hornerDesc_cons, ← hqcons, hornerDesc_reverse, Poly.At_def]
      rw [At_newPolyNoReverse, At_newPolyNoReverse, hornerAsc_reverse, hornerAsc_reverse]
      rw [Poly.At_def, ← hornerDesc_reverse, hmain, hQ]

/-- Degree bound for the `divCore` remainder: strict, except in the single
corner where the dividend is zero and the divisor a nonzero constant. -/
theorem divCore_rem_deg (p q : Poly) (hq : Wf q)
    (hcorner : ¬ (p.IsZero ∧ q.IsConstant)) :
    (divCore p q).2.deg < q.deg := by
  rw [divCore]
  have hqlen : 1 ≤ q.coef.length := by
    have h0 : q.coef.length ≠ 0 := fun h => hq.1 (List.length_eq_zero.mp h)
    omega
  by_cases hp0 : p.IsZero
  · rw [if_pos hp0]
    have hqc : ¬ q.IsConstant := fun h => hcorner ⟨hp0, h⟩
    have hd : ((q.coef.length : ℤ) - 1) ≠ 0 := hqc
    show NewPolyZero.deg < q.deg
    simp only [NewPolyZero, Poly.deg, List.length_cons, List.length_nil]
    omega
  · rw [if_neg hp0]
    by_cases hdeg : p.deg < q.deg
    · rw [if_pos hdeg]
      exact hdeg
    · rw [if_neg hdeg]
      simp only
      have hplen : q.coef.length ≤ p.coef.length := by
        simp only [Poly.deg, not_lt] at hdeg
        omega
      set sep := p.len - q.len + 1 with hsepdef
      have hreslen : (synDiv (q.coef.reverse.getD 0 0) (q.coef.reverse.drop 1) sep
          p.coef.reverse).length = p.coef.length := by
        rw [synDiv_length]; simp
      have hdroplen : ((synDiv (q.coef.reverse.getD 0 0) (q.coef.reverse.drop 1) sep
          p.coef.reverse).drop sep).length = q.coef.length - 1 := by
        rw [List.length_drop, hreslen, hsepdef]
        simp only [Poly.len]
        omega
      have hstrip := removeTrailingZeroes_length_le
        ((synDiv (q.coef.reverse.getD 0 0) (q.coef.reverse.drop 1) sep
          p.coef.reverse).drop sep).reverse
      simp only [Poly.deg, newPolyNoReverse]
      have hlen2 : ((synDiv (q.coef.reverse.getD 0 0) (q.coef.reverse.drop 1) sep
          p.coef.reverse).drop sep).reverse.length = q.coef.length - 1 := by
        rw [List.length_reverse, hdroplen]
      omega

/-! ## Claims C3, C4, C8 -/

/-- C3 (amended): for every well-formed polynomial `q` that is not the zero
polynomial, `EuclideanDivide(p, q)` terminates (the embedding is
structurally recursive) and returns a pair `(m, n)` with
`p = m*q + n` holding exactly at every point (hence within any tolerance),
and `deg n < deg q` — including constant `q` — except in the single corner
where `p` is the zero polynomial and `q` a nonzero constant, in which case
the remainder is the canonical zero polynomial of degree `0 = deg q`;
dividing by the zero polynomial fails with `DivisionByZero`. -/
theorem C3_euclidean_div (p q : Poly) (hq : Wf q) :
    (q.IsZero → p.Div q = .error .divisionByZero) ∧
    (¬ q.IsZero →
      p.Div q = .ok (divCore p q) ∧
      (∀ x : ℚ, p.At x = (divCore p q).1.At x * q.At x + (divCore p q).2.At x) ∧
      (¬ (p.IsZero ∧ q.IsConstant) → (divCore p q).2.deg < q.deg)) := by
  refine ⟨fun hz => ?_, fun hz => ⟨?_, fun x => divCore_spec p q hq hz x,
    fun hc => divCore_rem_deg p q hq hc⟩⟩
  · rw [Poly.Div, if_pos hz]
  · rw [Poly.Div, if_neg hz]

/-- C3 counterexample: dividing the zero polynomial by the nonzero constant
polynomial `2` returns the remainder `{0}` of degree `0`, which is not
strictly below the divisor's degree `0` — the claim's unconditional
`degree(remainder) < degree(divisor)` fails at this input. -/
theorem C3_counterexample :
    ¬ (NewPoly [2]).IsZero ∧
    divCore NewPolyZero (NewPoly [2]) = (NewPolyZero, NewPolyZero) ∧
    ¬ ((divCore NewPolyZero (NewPoly [2])).2.deg < (NewPoly [2]).deg) := by
  refine ⟨?_, ?_, ?_⟩ <;>
    norm_num [Poly.IsZero, divCore, NewPoly, newPolyNoReverse, removeTrailingZeroes, stripRev,
      Poly.deg, Poly.len, NewPolyZero]

/-- C3 witness: the division test vector of the repository
(`x^3 - 12x^2 - 42` by `x - 3`) instantiates the amended theorem. -/
theorem C3_witness :
    Wf (NewPoly [1, -3]) ∧ ¬ (NewPoly [1, -3]).IsZero ∧
    ((NewPoly [1, -12, 0, -42]).Div (NewPoly [1, -3])
        = .ok (divCore (NewPoly [1, -12, 0, -42]) (NewPoly [1, -3])) ∧
      (∀ x : ℚ, (NewPoly [1, -12, 0, -42]).At x
          = (divCore (NewPoly [1, -12, 0, -42]) (NewPoly [1, -3])).1.At x * (NewPoly [1, -3]).At x
            + (divCore (NewPoly [1, -12, 0, -42]) (NewPoly [1, -3])).2.At x) ∧
      (¬ ((NewPoly [1, -12, 0, -42]).IsZero ∧ (NewPoly [1, -3]).IsConstant) →
        (divCore (NewPoly [1, -12, 0, -42]) (NewPoly [1, -3])).2.deg < (NewPoly [1, -3]).deg)) :=
  ⟨by refine ⟨?_, ?_⟩ <;> simp [Wf, NewPoly, newPolyNoReverse, removeTrailingZeroes, stripRev],
   by norm_num [Poly.IsZero, NewPoly, newPolyNoReverse, removeTrailingZeroes, stripRev, Poly.deg],
   (C3_euclidean_div (NewPoly [1, -12, 0, -42]) (NewPoly [1, -3])
      (by refine ⟨?_, ?_⟩ <;>
        simp [Wf, NewPoly, newPolyNoReverse, removeTrailingZeroes, stripRev])).2
    (by norm_num [Poly.IsZero, NewPoly, newPolyNoReverse, removeTrailingZeroes, stripRev,
      Poly.deg])⟩

/-- C4: evaluating `Poly.Div` at the failing input `p = x`, `q = 2` (a
nonzero constant divisor): the returned remainder has an EMPTY coefficient
slice — length 0 and degree -1 — violating the "coefficient count ≥ 1"
invariant the specification demands of every returned polynomial (the other
division branches return the canonical `{0}`). -/
theorem C4_empty_remainder :
    ¬ (NewPoly [2]).IsZero ∧
    (divCore (NewPoly [1, 0]) (NewPoly [2])).2.coef = [] ∧
    (divCore (NewPoly [1, 0]) (NewPoly [2])).2.len = 0 ∧
    (divCore (NewPoly [1, 0]) (NewPoly [2])).2.deg = -1 ∧
    (NewPoly [1, 0]).Div (NewPoly [2]) = .ok (divCore (NewPoly [1, 0]) (NewPoly [2])) := by
  refine ⟨?_, ?_, ?_, ?_, ?_⟩ <;>
    norm_num [Poly.IsZero, Poly.Div, divCore, NewPoly, newPolyNoReverse, removeTrailingZeroes,
      stripRev, Poly.deg, Poly.len, synDiv, axpyNeg, NewPolyZero]

/-- C8: `Poly.Equal`'s loop is inverted (`==` where its documentation and
`Test_PolyEqual` require `!=`): it returns `false` on two structurally equal
polynomials (the repository's own test vector `3x^3 + x^2 + 4x + 1`) and
`true` on two polynomials of equal degree differing in every coefficient;
`Poly.EqualRel` is inverted the same way. -/
theorem C8_equal_inverted :
    (NewPoly [3, 1, 4, 1]).Equal (NewPoly [3, 1, 4, 1]) = false ∧
    (NewPoly [1, 2, 3, 2]).Equal (NewPoly [4, 5, 6, 7]) = true ∧
    (NewPoly [3, 1, 4, 1]).EqualRel (NewPoly [3, 1, 4, 1]) (1 / 100) = false := by
  refine ⟨?_, ?_, ?_⟩
  · norm_num [Poly.Equal, NewPoly, newPolyNoReverse, removeTrailingZeroes, stripRev, Poly.deg,
      Poly.len]
    exact ⟨0, by norm_num⟩
  · norm_num [Poly.Equal, NewPoly, newPolyNoReverse, removeTrailingZeroes, stripRev, Poly.deg,
      Poly.len]
    decide
  · norm_num [Poly.EqualRel, NewPoly, newPolyNoReverse, removeTrailingZeroes, stripRev, Poly.deg,
      Poly.len, equalRel]
    exact ⟨0, by norm_num⟩

/-! ## Claims C10 and C1: sign classification and variation counting -/

/-- Adjacent-negative-product counter (recursive form of the loop of
`countSignVariations`). -/
def adjNeg : List ℚ → ℕ
  | [] => 0
  | [_] => 0
  | x :: y :: rest => (if x * y < 0 then 1 else 0) + adjNeg (y :: rest)

theorem countP_zip_tail (l : List ℚ) :
    (l.zip l.tail).countP (fun pr => decide (pr.1 * pr.2 < 0)) = adjNeg l := by
  induction l with
  | nil => rfl
  | cons x t ih =>
      cases t with
      | nil => rfl
      | cons y rest =>
          have hzip : ((x :: y :: rest).zip (x :: y :: rest).tail)
              = (x, y) :: ((y :: rest).zip (y :: rest).tail) := rfl
          rw [hzip, List.countP_cons, ih]
          show adjNeg (y :: rest) + _ = (if x * y < 0 then 1 else 0) + adjNeg (y :: rest)
          by_cases h : x * y < 0 <;> (simp [h]; try omega)

theorem countSignVariations_of_ne_zero {vals : List ℚ} (h : ∀ v ∈ vals, v ≠ 0) :
    countSignVariations vals = adjNeg vals := by
  rw [countSignVariations]
  have hfil : vals.filter (fun v => ¬ v = 0) = vals := by
    rw [List.filter_eq_self]
    intro a ha
    simpa using h a ha
  rw [hfil, countP_zip_tail]

theorem sign_ne_zero_val {eps v : ℚ} (h : sign eps v ≠ 0) : v ≠ 0 := by
  intro hv
  exact h (by simp [sign, approxEqual, hv])

theorem sign_ne_zero_not_approx {eps v : ℚ} (h : sign eps v ≠ 0) : ¬ approxEqual eps v 0 := by
  intro ha
  exact h (by simp [sign, ha])

theorem sign_strict {eps v : ℚ} (h : sign eps v ≠ 0) :
    sign eps v = if 0 < v then 1 else -1 := by
  rw [sign, if_neg (sign_ne_zero_not_approx h)]

theorem sign_ne_iff {eps x y : ℚ} (hx : sign eps x ≠ 0) (hy : sign eps y ≠ 0) :
    (sign eps y ≠ sign eps x ↔ x * y < 0) := by
  have hx0 : x ≠ 0 := sign_ne_zero_val hx
  have hy0 : y ≠ 0 := sign_ne_zero_val hy
  rw [sign_strict hx, sign_strict hy]
  rcases hx0.lt_or_lt with hxneg | hxpos <;> rcases hy0.lt_or_lt with hyneg | hypos
  · simp only [if_neg (not_lt.mpr hxneg.le), if_neg (not_lt.mpr hyneg.le)]
    simp only [ne_eq, not_true_eq_false, false_iff, not_lt]
    exact (mul_pos_of_neg_of_neg hxneg hyneg).le
  · simp only [if_neg (not_lt.mpr hxneg.le), if_pos hypos]
    constructor
    · intro _
      exact mul_neg_of_neg_of_pos hxneg hypos
    · intro _
      decide
  · simp only [if_pos hxpos, if_neg (not_lt.mpr hyneg.le)]
    constructor
    · intro _
      exact mul_neg_of_pos_of_neg hxpos hyneg
    · intro _
      decide
  · simp only [if_pos hxpos, if_pos hypos]
    simp only [ne_eq, not_true_eq_false, false_iff, not_lt]
    exact (mul_pos hxpos hypos).le

theorem countTransitions_eq_adjNeg (eps : ℚ) (vals : List ℚ)
    (h : ∀ v ∈ vals, sign eps v ≠ 0) :
    countTransitions (vals.map (sign eps)) = adjNeg vals := by
  induction vals with
  | nil => rfl
  | cons x t ih =>
      cases t with
      | nil => rfl
      | cons y rest =>
          have hx : sign eps x ≠ 0 := h x (by simp)
          have hy : sign eps y ≠ 0 := h y (by simp)
          have hmap : (x :: y :: rest).map (sign eps)
              = sign eps x :: sign eps y :: rest.map (sign eps) := rfl
          rw [hmap, countTransitions]
          have htail := ih (fun v hv => h v (by simp at hv ⊢; tauto))
          rw [show (y :: rest).map (sign eps) = sign eps y :: rest.map (sign eps) from rfl] at htail
          rw [htail]
          rw [show adjNeg (x :: y :: rest) = (if x * y < 0 then 1 else 0) + adjNeg (y :: rest)
            from rfl]
          congr 1
          by_cases hcond : x * y < 0
          · rw [if_pos hcond, if_pos ⟨(sign_ne_iff hx hy).mpr hcond, hx⟩]
          · rw [if_neg hcond, if_neg]
            intro ⟨hne, _⟩
            exact hcond ((sign_ne_iff hx hy).mp hne)

theorem countSignVariations_singleton (v : ℚ) : countSignVariations [v] = 0 := by
  unfold countSignVariations
  by_cases h : v = 0 <;> simp [h, List.filter]

/-- C1 (amended): `CountRootsWithin` equals the claimed
`variations(a) − variations(b)` CLAMPED BELOW AT ZERO, and only under the
proviso that no Sturm-chain value at either endpoint is classified as zero
by the epsilon-approximate `sign` (the code classifies values by
`approxEqual`, not by exact comparison with zero; on zero-classified values
its transition counting differs from the claimed filter-then-multiply
rule). -/
theorem C1_count_roots_within (eps : ℚ) (p : Poly) (a b : ℚ)
    (hA : ∀ v ∈ (new_sturmChain p).map (fun c => c.At a), sign eps v ≠ 0)
    (hB : ∀ v ∈ (new_sturmChain p).map (fun c => c.At b), sign eps v ≠ 0) :
    CountRootsWithin eps p a b = max 0 (claimedCount p a b) := by
  rw [CountRootsWithin, claimedCount, sturmCount]
  set chain := new_sturmChain p with hchain
  by_cases hlen : chain.length = 1
  · rw [if_pos hlen]
    obtain ⟨c, hc⟩ := List.length_eq_one.mp hlen
    rw [hc]
    simp only [List.map_cons, List.map_nil, countSignVariations_singleton]
    simp
  · rw [if_neg hlen]
    have hvalsA : ∀ v ∈ chain.map (fun c => c.At a), v ≠ 0 :=
      fun v hv => sign_ne_zero_val (hA v hv)
    have hvalsB : ∀ v ∈ chain.map (fun c => c.At b), v ≠ 0 :=
      fun v hv => sign_ne_zero_val (hB v hv)
    have hmapA : chain.map (fun c => sign eps (c.At a))
        = (chain.map (fun c => c.At a)).map (sign eps) := by
      rw [List.map_map]; rfl
    have hmapB : chain.map (fun c => sign eps (c.At b))
        = (chain.map (fun c => c.At b)).map (sign eps) := by
      rw [List.map_map]; rfl
    rw [hmapA, hmapB, countTransitions_eq_adjNeg eps _ hA, countTransitions_eq_adjNeg eps _ hB,
      ← countSignVariations_of_ne_zero hvalsA, ← countSignVariations_of_ne_zero hvalsB]
    dsimp only
    split_ifs <;> omega

/-- Variation count of a two-element sequence of nonzero values. -/
theorem countSignVariations_pair (u v : ℚ) (hu : u ≠ 0) (hv : v ≠ 0) :
    countSignVariations [u, v] = if u * v < 0 then 1 else 0 := by
  have h := @countSignVariations_of_ne_zero [u, v]
    (by intro x hx; simp at hx; rcases hx with h | h <;> subst h <;> assumption)
  rw [h]
  show (if u * v < 0 then 1 else 0) + adjNeg [v] = _
  simp [adjNeg]

/-- C1 counterexample: for `p = x` on the interval `(-1e-6, 5]` with the
default epsilon, the code returns 0 (the value `-1e-6` is classified as a
zero sign, and a transition out of a zero sign is not counted), while the
claimed exact-zero-filtering variation rule gives 1 — which is also the true
root count. -/
theorem C1_counterexample :
    CountRootsWithin epsilon0 (NewPoly [1, 0]) (-1 / 1000000) 5 = 0 ∧
    claimedCount (NewPoly [1, 0]) (-1 / 1000000) 5 = 1 := by
  have hchain : new_sturmChain (NewPoly [1, 0]) = [⟨[0, 1]⟩, ⟨[1]⟩] := by
    norm_num [new_sturmChain, chainExt, divCore, NewPoly, newPolyNoReverse, removeTrailingZeroes,
      stripRev, Poly.deg, Poly.len, Poly.degNat, Poly.Derivative, Poly.MulScalar, Poly.IsZero,
      Poly.IsConstant, NewPolyZero, synDiv, axpyNeg]
  constructor
  · rw [CountRootsWithin, hchain]
    norm_num [sturmCount, Poly.At, sign, approxEqual, countTransitions, epsilon0,
      abs_of_nonneg, abs_of_nonpos]
  · rw [claimedCount, hchain]
    have h1 : Poly.At ⟨[0, 1]⟩ (-1 / 1000000) = -1 / 1000000 := by
      norm_num [Poly.At]
    have h2 : Poly.At ⟨[1]⟩ (-1 / 1000000) = 1 := by norm_num [Poly.At]
    have h3 : Poly.At ⟨[0, 1]⟩ 5 = 5 := by norm_num [Poly.At]
    have h4 : Poly.At ⟨[1]⟩ 5 = 1 := by norm_num [Poly.At]
    simp only [List.map_cons, List.map_nil, h1, h2, h3, h4]
    rw [countSignVariations_pair _ _ (by norm_num) (by norm_num),
      countSignVariations_pair _ _ (by norm_num) (by norm_num)]
    norm_num

/-- C1 witness: `p = x^2 - 1` on `(-5, 5]` (the specification's own
example): all chain values at the endpoints have nonzero approximate sign
and the count is `2 = max 0 (2 - 0)`. -/
theorem C1_witness :
    (∀ v ∈ (new_sturmChain (NewPoly [1, 0, -1])).map (fun c => c.At (-5)),
      sign epsilon0 v ≠ 0) ∧
    (∀ v ∈ (new_sturmChain (NewPoly [1, 0, -1])).map (fun c => c.At 5),
      sign epsilon0 v ≠ 0) ∧
    CountRootsWithin epsilon0 (NewPoly [1, 0, -1]) (-5) 5
      = max 0 (claimedCount (NewPoly [1, 0, -1]) (-5) 5) := by
  have hchain : new_sturmChain (NewPoly [1, 0, -1]) = [⟨[-1, 0, 1]⟩, ⟨[0, 2]⟩, ⟨[1]⟩] := by
    norm_num [new_sturmChain, chainExt, divCore, NewPoly, newPolyNoReverse, removeTrailingZeroes,
      stripRev, Poly.deg, Poly.len, Poly.degNat, Poly.Derivative, Poly.MulScalar, Poly.IsZero,
      Poly.IsConstant, NewPolyZero, synDiv, axpyNeg]
  have hA : ∀ v ∈ (new_sturmChain (NewPoly [1, 0, -1])).map (fun c => c.At (-5)),
      sign epsilon0 v ≠ 0 := by
    rw [hchain]
    norm_num [Poly.At, sign, approxEqual, epsilon0, abs_of_nonneg, abs_of_nonpos]
  have hB : ∀ v ∈ (new_sturmChain (NewPoly [1, 0, -1])).map (fun c => c.At 5),
      sign epsilon0 v ≠ 0 := by
    rw [hchain]
    norm_num [Poly.At, sign, approxEqual, epsilon0, abs_of_nonneg, abs_of_nonpos]
  exact ⟨hA, hB, C1_count_roots_within epsilon0 (NewPoly [1, 0, -1]) (-5) 5 hA hB⟩

/-- C10: the `sign` classifier used by the Sturm counter does not compare
against exact zero: it returns 0 exactly when the value is within `eps` of 0
by absolute or relative error (`approxEqual`), where `eps` models the
package-global mutable `epsilon`; consequently `CountRootsWithin` returns
different counts for the same polynomial `p = x` and interval `(-1e-6, 3]`
under different epsilon settings (0 at the default `1e-5`, 1 at `1e-7`). -/
theorem C10_sign_epsilon :
    (∀ eps v : ℚ, sign eps v = 0 ↔ (v = 0 ∨ |v - 0| ≤ eps ∨ |v - 0| / (|v| + |0|) ≤ eps)) ∧
    CountRootsWithin epsilon0 (NewPoly [1, 0]) (-1 / 1000000) 3 = 0 ∧
    CountRootsWithin (1 / 10000000) (NewPoly [1, 0]) (-1 / 1000000) 3 = 1 := by
  have hchain : new_sturmChain (NewPoly [1, 0]) = [⟨[0, 1]⟩, ⟨[1]⟩] := by
    norm_num [new_sturmChain, chainExt, divCore, NewPoly, newPolyNoReverse, removeTrailingZeroes,
      stripRev, Poly.deg, Poly.len, Poly.degNat, Poly.Derivative, Poly.MulScalar, Poly.IsZero,
      Poly.IsConstant, NewPolyZero, synDiv, axpyNeg]
  refine ⟨fun eps v => ?_, ?_, ?_⟩
  · show sign eps v = 0 ↔ approxEqual eps v 0
    rw [sign]
    by_cases h : approxEqual eps v 0
    · simp [h]
    · rw [if_neg h]
      constructor
      · intro hs
        by_cases hv : 0 < v <;> simp [hv] at hs
      · intro hc
        exact absurd hc h
  · rw [CountRootsWithin, hchain]
    norm_num [sturmCount, Poly.At, sign, approxEqual, countTransitions, epsilon0,
      abs_of_nonneg, abs_of_nonpos]
  · rw [CountRootsWithin, hchain]
    norm_num [sturmCount, Poly.At, sign, approxEqual, countTransitions,
      abs_of_nonneg, abs_of_nonpos]

/-! ## Claims C9 and C6: the root search entry points -/

theorem bisectPrecision0_pos : 0 < bisectPrecision0 := by
  norm_num [bisectPrecision0]

/-- If the interval width is already within precision, the `solve_bisect`
loop body never runs and the third argument (the Go local `mid`) is
returned unchanged. -/
theorem solve_bisect_noloop (counter : Poly → ℚ → ℚ → ℤ) (p : Poly) (prec : ℚ)
    (hp : 0 < prec) (l r mid : ℚ) (h : ¬ prec < r - l) :
    solve_bisect counter p prec hp l r mid = mid := by
  rw [solve_bisect]
  exact dif_neg h

/-- C9: whenever a single-root half-open interval handed to the bisection
searcher already has width at most the configured precision, the narrowing
loop is never entered and the zero value of the uninitialised local `mid`
is returned — regardless of where the interval lies; concretely,
`FindRootsWithin` on `x^3 - 100x` over `(10 - 5e-7, 10 + 5e-7]` (one
isolated root at 10, width `1e-6` = default precision) reports the root
list `[0]`, though 0 is not in the interval. -/
theorem C9_bisect_uninitialised_mid :
    (∀ (counter : Poly → ℚ → ℚ → ℤ) (p : Poly) (prec : ℚ) (hp : 0 < prec) (l r : ℚ),
      r - l ≤ prec → solve_bisect counter p prec hp l r 0 = 0) ∧
    FindRootsWithin 1 epsilon0 bisectPrecision0 bisectPrecision0_pos (fun _ => 0)
      (NewPoly [1, 0, -100, 0]) (10 - 1 / 2000000) (10 + 1 / 2000000) = some (.ok [0]) ∧
    ¬ (10 - 1 / 2000000 < (0 : ℚ) ∧ (0 : ℚ) ≤ 10 + 1 / 2000000) := by
  refine ⟨fun counter p prec hp l r h => solve_bisect_noloop counter p prec hp l r 0
    (not_lt.mpr h), ?_, by norm_num⟩
  have hcoef : (NewPoly [1, 0, -100, 0]).coef = [0, -100, 0, 1] := by
    norm_num [NewPoly, newPolyNoReverse, removeTrailingZeroes, stripRev]
  have hcount : CountRootsWithin epsilon0 (NewPoly [1, 0, -100, 0])
      (10 - 1 / 2000000) (10 + 1 / 2000000) = 1 := by
    norm_num [CountRootsWithin, sturmCount, new_sturmChain, chainExt, divCore, NewPoly,
      newPolyNoReverse, removeTrailingZeroes, stripRev, Poly.At, Poly.deg, Poly.len, Poly.degNat,
      Poly.Derivative, Poly.MulScalar, Poly.IsZero, Poly.IsConstant, NewPolyZero, synDiv, axpyNeg,
      sign, approxEqual, countTransitions, epsilon0, abs_of_nonneg, abs_of_nonpos]
  have hiso : IsolateRootsWithin epsilon0 (NewPoly [1, 0, -100, 0]) 1
      (10 - 1 / 2000000) (10 + 1 / 2000000)
      = some [⟨10 - 1 / 2000000, 10 + 1 / 2000000⟩] := by
    rw [IsolateRootsWithin, hcount]
    norm_num
  rw [FindRootsWithin]
  rw [if_neg (by norm_num)]
  rw [if_neg (by rw [Poly.deg, hcoef]; norm_num)]
  rw [if_neg (by rw [Poly.deg, hcoef]; norm_num)]
  rw [if_neg (by rw [Poly.deg, hcoef]; norm_num)]
  rw [hiso]
  rw [Option.map_some']
  rw [List.map_cons, List.map_nil]
  rw [solve_bisect_noloop _ _ _ _ _ _ _ (by norm_num [bisectPrecision0])]

/-- C9 witness: the zero-iteration branch applied at a concrete narrow
interval. -/
theorem C9_witness :
    (3 : ℚ) - 3 ≤ 1 ∧
    solve_bisect (fun _ _ _ => 0) NewPolyZero 1 one_pos 3 3 0 = 0 :=
  ⟨by norm_num,
   C9_bisect_uninitialised_mid.1 (fun _ _ _ => 0) NewPolyZero 1 one_pos 3 3 (by norm_num)⟩

/-- C6 (amended): `FindRootsWithin` on the zero polynomial fails with
`InfiniteSolutions` (never returning a list), and a non-zero CONSTANT
polynomial — which has no roots anywhere — yields the valid empty list, not
an error; the two outcomes are never conflated.  For degrees 1 and 2,
however, the closed-form path ignores the interval bounds (`TODO: Check
bounds a, b.`), so a non-zero polynomial with zero roots in the queried
interval can yield a non-empty list of out-of-interval values rather than
the empty list. -/
theorem C6_infinite_solutions (fuel : ℕ) (eps prec : ℚ) (hp : 0 < prec) (sqrtF : ℚ → ℚ)
    (a b : ℚ) (hab : a ≤ b) :
    FindRootsWithin fuel eps prec hp sqrtF NewPolyZero a b
      = some (.error .infiniteSolutions) ∧
    (∀ p : Poly, p.deg = 0 → ¬ p.IsZero →
      FindRootsWithin fuel eps prec hp sqrtF p a b = some (.ok [])) := by
  constructor
  · rw [FindRootsWithin, if_neg (not_lt.mpr hab)]
    rw [if_pos (by simp [NewPolyZero, Poly.deg])]
    rw [if_pos (by simp [NewPolyZero])]
  · intro p hdeg hnz
    rw [FindRootsWithin, if_neg (not_lt.mpr hab), if_pos hdeg]
    rw [if_neg (fun h0 => hnz ⟨hdeg, h0⟩)]

/-- C6 counterexample: `p = x` is non-zero and has no root in `(5, 6]`, yet
`FindRootsWithin` returns `[0]` (the interval-ignoring linear closed form),
not the empty list the claim requires. -/
theorem C6_counterexample :
    FindRootsWithin 1 epsilon0 bisectPrecision0 bisectPrecision0_pos (fun _ => 0)
      (NewPoly [1, 0]) 5 6 = some (.ok [0]) ∧
    ¬ (NewPoly [1, 0]).IsZero ∧
    (∀ x : ℚ, 5 < x → x ≤ 6 → (NewPoly [1, 0]).At x ≠ 0) := by
  have hcoef : (NewPoly [1, 0]).coef = [0, 1] := by
    norm_num [NewPoly, newPolyNoReverse, removeTrailingZeroes, stripRev]
  refine ⟨?_, ?_, ?_⟩
  · rw [FindRootsWithin]
    rw [if_neg (by norm_num)]
    rw [if_neg (by rw [Poly.deg, hcoef]; norm_num)]
    rw [if_pos (by rw [Poly.deg, hcoef]; norm_num)]
    rw [solve_linear, hcoef]
    norm_num
  · rw [Poly.IsZero, Poly.deg, hcoef]
    norm_num
  · intro x hx _
    rw [Poly.At, hcoef]
    simp only [List.foldr]
    nlinarith

/-- C6 witness: the specification's own examples — the zero polynomial
`[0]` fails with `InfiniteSolutions` on `(-1, 1]`, and the constant
polynomial `p = 2` yields the empty root list there. -/
theorem C6_witness :
    ((-1 : ℚ) ≤ 1) ∧
    FindRootsWithin 1 epsilon0 bisectPrecision0 bisectPrecision0_pos (fun _ => 0)
      NewPolyZero (-1) 1 = some (.error .infiniteSolutions) ∧
    FindRootsWithin 1 epsilon0 bisectPrecision0 bisectPrecision0_pos (fun _ => 0)
      (NewPoly [2]) (-1) 1 = some (.ok []) :=
  ⟨by norm_num,
   (C6_infinite_solutions 1 epsilon0 bisectPrecision0 bisectPrecision0_pos (fun _ => 0)
      (-1) 1 (by norm_num)).1,
   (C6_infinite_solutions 1 epsilon0 bisectPrecision0 bisectPrecision0_pos (fun _ => 0)
      (-1) 1 (by norm_num)).2 (NewPoly [2])
    (by norm_num [NewPoly, newPolyNoReverse, removeTrailingZeroes, stripRev, Poly.deg])
    (by norm_num [Poly.IsZero, NewPoly, newPolyNoReverse, removeTrailingZeroes, stripRev,
      Poly.deg])⟩

/-! ## Claim C5: root isolation need not terminate -/

/-- Sign classification under the default epsilon: values above the
threshold are positive. -/
theorem sign_eps0_pos {v : ℚ} (h : epsilon0 < v) : sign epsilon0 v = 1 := by
  have hv : 0 < v := lt_trans (by norm_num [epsilon0]) h
  have hna : ¬ approxEqual epsilon0 v 0 := by
    rw [approxEqual]
    push_neg
    refine ⟨ne_of_gt hv, ?_, ?_⟩
    · rw [sub_zero, abs_of_pos hv]
      exact h
    · rw [sub_zero, abs_zero, add_zero, abs_of_pos hv, div_self (ne_of_gt hv)]
      norm_num [epsilon0]
  rw [sign, if_neg hna, if_pos hv]

/-- Sign classification under the default epsilon: values below the
negative threshold are negative. -/
theorem sign_eps0_neg {v : ℚ} (h : v < -epsilon0) : sign epsilon0 v = -1 := by
  have hv : v < 0 := lt_trans h (by norm_num [epsilon0])
  have hna : ¬ approxEqual epsilon0 v 0 := by
    rw [approxEqual]
    push_neg
    refine ⟨ne_of_lt hv, ?_, ?_⟩
    · rw [sub_zero, abs_of_neg hv]
      linarith
    · rw [sub_zero, abs_zero, add_zero, abs_of_neg hv, div_self (by linarith)]
      norm_num [epsilon0]
  rw [sign, if_neg hna, if_neg (not_lt.mpr hv.le)]

/-- Sign classification under the default epsilon: values within the
threshold in absolute value are classified as zero. -/
theorem sign_eps0_zero {v : ℚ} (h : |v| ≤ epsilon0) : sign epsilon0 v = 0 := by
  rw [sign, if_pos]
  rw [approxEqual]
  right; left
  rwa [sub_zero]

/-- The quadratic probe polynomial `x^2 + bx + c` with
`b = -(2/3) - 1e-5` and `c = 1/9 + (4/3)*1e-5`, designed so that at
`x0 = 1/3` the polynomial value crosses the threshold `+epsilon` and its
derivative crosses `-epsilon` simultaneously, while the last Sturm chain
entry is a constant within epsilon of zero. -/
def probePoly : Poly := NewPoly [1, -(2 / 3) - 1 / 100000, 1 / 9 + 4 / 300000]

theorem probePoly_coef : probePoly = ⟨[1 / 9 + 4 / 300000, -(2 / 3) - 1 / 100000, 1]⟩ := by
  norm_num [probePoly, NewPoly, newPolyNoReverse, removeTrailingZeroes, stripRev]

theorem probePoly_chain : new_sturmChain probePoly
    = [⟨[1 / 9 + 4 / 300000, -(2 / 3) - 1 / 100000, 1]⟩,
       ⟨[-(2 / 3) - 1 / 100000, 2]⟩, ⟨[-(399999 / 40000000000)]⟩] := by
  rw [probePoly_coef]
  norm_num [new_sturmChain, chainExt, divCore, newPolyNoReverse, removeTrailingZeroes, stripRev,
    Poly.deg, Poly.len, Poly.degNat, Poly.Derivative, Poly.MulScalar, Poly.IsZero,
    Poly.IsConstant, NewPolyZero, NewPoly, synDiv, axpyNeg]

theorem probe_sign_p_left {x : ℚ} (hx : x < 1 / 3) :
    sign epsilon0 ((⟨[1 / 9 + 4 / 300000, -(2 / 3) - 1 / 100000, 1]⟩ : Poly).At x) = 1 := by
  apply sign_eps0_pos
  have hval : (⟨[1 / 9 + 4 / 300000, -(2 / 3) - 1 / 100000, 1]⟩ : Poly).At x
      = x ^ 2 + (-(2 / 3) - 1 / 100000) * x + (1 / 9 + 4 / 300000) := by
    simp [Poly.At]
    try ring
  rw [hval, epsilon0]
  have hs : 0 < 1 / 3 - x := by linarith
  nlinarith [mul_pos hs hs, hs]

theorem probe_sign_d_left {x : ℚ} (hx : x < 1 / 3) :
    sign epsilon0 ((⟨[-(2 / 3) - 1 / 100000, 2]⟩ : Poly).At x) = -1 := by
  apply sign_eps0_neg
  have hval : (⟨[-(2 / 3) - 1 / 100000, 2]⟩ : Poly).At x
      = 2 * x + (-(2 / 3) - 1 / 100000) := by
    simp [Poly.At]
    try ring
  rw [hval, epsilon0]
  linarith

theorem probe_sign_p_right {x : ℚ} (hx1 : 1 / 3 < x) (hx2 : x ≤ 1 / 3 + 1 / 100000) :
    sign epsilon0 ((⟨[1 / 9 + 4 / 300000, -(2 / 3) - 1 / 100000, 1]⟩ : Poly).At x) = 0 := by
  apply sign_eps0_zero
  have hval : (⟨[1 / 9 + 4 / 300000, -(2 / 3) - 1 / 100000, 1]⟩ : Poly).At x
      = x ^ 2 + (-(2 / 3) - 1 / 100000) * x + (1 / 9 + 4 / 300000) := by
    simp [Poly.At]
    try ring
  rw [hval, epsilon0, abs_le]
  have hs1 : 0 < x - 1 / 3 := by linarith
  have hs2 : x - 1 / 3 ≤ 1 / 100000 := by linarith
  constructor
  · nlinarith [mul_pos hs1 hs1]
  · nlinarith [mul_nonneg hs1.le (by linarith : (0 : ℚ) ≤ 1 / 100000 - (x - 1 / 3))]

theorem probe_sign_d_right {x : ℚ} (hx1 : 1 / 3 < x) (hx2 : x ≤ 1 / 3 + 1 / 100000) :
    sign epsilon0 ((⟨[-(2 / 3) - 1 / 100000, 2]⟩ : Poly).At x) = 0 := by
  apply sign_eps0_zero
  have hval : (⟨[-(2 / 3) - 1 / 100000, 2]⟩ : Poly).At x
      = 2 * x + (-(2 / 3) - 1 / 100000) := by
    simp [Poly.At]
    try ring
  rw [hval, epsilon0, abs_le]
  constructor <;> linarith

theorem probe_sign_const {x : ℚ} :
    sign epsilon0 ((⟨[-(399999 / 40000000000)]⟩ : Poly).At x) = 0 := by
  apply sign_eps0_zero
  have hval : (⟨[-(399999 / 40000000000)]⟩ : Poly).At x = -(399999 / 40000000000) := by
    simp [Poly.At]
  rw [hval, epsilon0]
  rw [abs_of_nonpos (by norm_num)]
  norm_num

/-- On every interval whose left endpoint is left of `1/3` and whose right
endpoint is at most `epsilon` to the right of `1/3`, the approximate-sign
Sturm count of `probePoly` is 2 — although the polynomial has no roots at
all. -/
theorem probe_count_two {l r : ℚ} (hl : l < 1 / 3) (hr1 : 1 / 3 < r)
    (hr2 : r ≤ 1 / 3 + 1 / 100000) :
    CountRootsWithin epsilon0 probePoly l r = 2 := by
  rw [CountRootsWithin, probePoly_chain, sturmCount]
  rw [if_neg (by norm_num)]
  simp only [List.map_cons, List.map_nil]
  rw [probe_sign_p_left hl, probe_sign_d_left hl, probe_sign_const,
    probe_sign_p_right hr1 hr2, probe_sign_d_right hr1 hr2, probe_sign_const]
  decide

/-- The straddling invariant of the nested dyadic subdivision: the
endpoints sit at `1/3 - 2c, 1/3 + c` or `1/3 - c, 1/3 + 2c` for
`c = 2^-(21+k)`, and `1/3` is never a midpoint. -/
def Straddles (l r : ℚ) : Prop :=
  ∃ k : ℕ, (l = 1 / 3 - 2 * (1 / 2 ^ (21 + k)) ∧ r = 1 / 3 + 1 / 2 ^ (21 + k)) ∨
           (l = 1 / 3 - 1 / 2 ^ (21 + k) ∧ r = 1 / 3 + 2 * (1 / 2 ^ (21 + k)))

theorem pow_ofs_pos (k : ℕ) : (0 : ℚ) < 1 / 2 ^ (21 + k) := by positivity

theorem pow_ofs_small (k : ℕ) : (1 : ℚ) / 2 ^ (21 + k) ≤ 1 / 2 ^ 21 := by
  apply div_le_div_of_nonneg_left (by norm_num) (by positivity)
  exact pow_le_pow_right₀ (by norm_num) (by omega)

theorem straddles_bounds {l r : ℚ} (h : Straddles l r) :
    l < 1 / 3 ∧ 1 / 3 < r ∧ r ≤ 1 / 3 + 1 / 100000 := by
  obtain ⟨k, hk | hk⟩ := h <;>
    obtain ⟨hl, hr⟩ := hk <;>
    subst hl <;> subst hr <;>
    refine ⟨by nlinarith [pow_ofs_pos k], by nlinarith [pow_ofs_pos k], ?_⟩ <;>
    nlinarith [pow_ofs_small k]

/-- The bisection recursion of `IsolateRootsWithin` never terminates on a
straddling interval of `probePoly`: the child interval containing `1/3`
satisfies the invariant again, and its `none` propagates through the
append. -/
theorem probe_isolate_none : ∀ (n : ℕ) (l r : ℚ), Straddles l r →
    IsolateRootsWithin epsilon0 probePoly n l r = none := by
  intro n
  induction n with
  | zero => intro l r _; rfl
  | succ n ih =>
      intro l r hs
      obtain ⟨hl, hr1, hr2⟩ := straddles_bounds hs
      have hcount := probe_count_two hl hr1 hr2
      rw [IsolateRootsWithin, hcount]
      rw [if_neg (by norm_num), if_neg (by norm_num)]
      dsimp only
      obtain ⟨k, hk | hk⟩ := hs
      · -- (1/3 - 2c, 1/3 + c): the right child straddles
        have hright : IsolateRootsWithin epsilon0 probePoly n (1 / 2 * (l + r)) r = none := by
          apply ih
          exact ⟨k + 1, Or.inr ⟨by rw [hk.1, hk.2]; ring, by rw [hk.2]; ring⟩⟩
        cases IsolateRootsWithin epsilon0 probePoly n l (1 / 2 * (l + r)) <;>
          rw [hright]
      · -- (1/3 - c, 1/3 + 2c): the left child straddles
        have hleft : IsolateRootsWithin epsilon0 probePoly n l (1 / 2 * (l + r)) = none := by
          apply ih
          exact ⟨k + 1, Or.inl ⟨by rw [hk.1]; ring, by rw [hk.1, hk.2]; ring⟩⟩
        rw [hleft]

/-- Real-number evaluation of a polynomial (used where the specification
speaks about real roots). -/
def Poly.AtR (p : Poly) (x : ℝ) : ℝ :=
  (p.coef.map (Rat.cast : ℚ → ℝ)).foldr (fun c acc => acc * x + c) 0

/-- C5 counterexample: `probePoly` has no real roots whatsoever (its value
is everywhere positive), so its roots in any interval are vacuously simple;
yet `IsolateRootsWithin` on `(1/3 - 2^-20, 1/3 + 2^-21]` recurses forever —
no recursion depth suffices. -/
theorem C5_counterexample :
    (∀ x : ℝ, 0 < probePoly.AtR x) ∧
    ¬ ∃ n : ℕ, (IsolateRootsWithin epsilon0 probePoly n
      (1 / 3 - 2 * (1 / 2 ^ 21)) (1 / 3 + 1 / 2 ^ 21)).isSome := by
  constructor
  · intro x
    have hval : probePoly.AtR x
        = x ^ 2 + (-(2 / 3) - 1 / 100000) * x + (1 / 9 + 4 / 300000) := by
      rw [probePoly_coef, Poly.AtR]
      push_cast
      simp
      ring
    rw [hval]
    nlinarith [sq_nonneg (x - 1 / 3)]
  · rintro ⟨n, hn⟩
    rw [probe_isolate_none n _ _ ⟨0, Or.inl ⟨rfl, rfl⟩⟩] at hn
    simp at hn

/-- C5 (amended): the recursion structure of `IsolateRootsWithin` is as
claimed — count 0 yields the empty list, count 1 yields the single interval
`(a, b]`, and otherwise the two halves around the midpoint are computed and
concatenated in left-to-right order — but termination is NOT guaranteed,
not even for polynomials whose roots in the interval are all simple: the
approximate-sign Sturm count can stay at 2 on every subinterval around a
threshold point (see the counterexample, a polynomial without any roots). -/
theorem C5_isolate_structure (eps : ℚ) (p : Poly) (fuel : ℕ) (a b : ℚ) :
    (CountRootsWithin eps p a b = 0 → IsolateRootsWithin eps p (fuel + 1) a b = some []) ∧
    (CountRootsWithin eps p a b = 1 →
      IsolateRootsWithin eps p (fuel + 1) a b = some [⟨a, b⟩]) ∧
    (CountRootsWithin eps p a b ≠ 0 → CountRootsWithin eps p a b ≠ 1 →
      IsolateRootsWithin eps p (fuel + 1) a b
        = match IsolateRootsWithin eps p fuel a (1 / 2 * (a + b)),
                IsolateRootsWithin eps p fuel (1 / 2 * (a + b)) b with
          | some L, some R => some (L ++ R)
          | _, _ => none) := by
  refine ⟨fun h0 => ?_, fun h1 => ?_, fun h0 h1 => ?_⟩
  · rw [IsolateRootsWithin, h0]
    norm_num
  · rw [IsolateRootsWithin, h1]
    norm_num
  · rw [IsolateRootsWithin, if_neg h0, if_neg h1]

/-- C5 witness: `p = x` has no roots on `(1, 2]`, the count is 0 and the
isolation returns the empty partition at once. -/
theorem C5_witness :
    CountRootsWithin epsilon0 (NewPoly [1, 0]) 1 2 = 0 ∧
    IsolateRootsWithin epsilon0 (NewPoly [1, 0]) 1 1 2 = some [] := by
  have hchain : new_sturmChain (NewPoly [1, 0]) = [⟨[0, 1]⟩, ⟨[1]⟩] := by
    norm_num [new_sturmChain, chainExt, divCore, NewPoly, newPolyNoReverse, removeTrailingZeroes,
      stripRev, Poly.deg, Poly.len, Poly.degNat, Poly.Derivative, Poly.MulScalar, Poly.IsZero,
      Poly.IsConstant, NewPolyZero, synDiv, axpyNeg]
  have hc : CountRootsWithin epsilon0 (NewPoly [1, 0]) 1 2 = 0 := by
    rw [CountRootsWithin, hchain]
    norm_num [sturmCount, Poly.At, sign, approxEqual, countTransitions, epsilon0,
      abs_of_nonneg, abs_of_nonpos]
  exact ⟨hc, (C5_isolate_structure epsilon0 (NewPoly [1, 0]) 0 1 2).1 hc⟩

/-! ## C7: Cauchy's bound and `FindRoots` -/

theorem le_foldl_max (l : List ℚ) (a : ℚ) : a ≤ l.foldl max a := by
  induction l generalizing a with
  | nil => exact le_refl a
  | cons c t ih =>
      rw [List.foldl_cons]
      exact le_trans (le_max_left a c) (ih (max a c))

theorem foldl_max_le {l : List ℚ} {v : ℚ} (a : ℚ) (hv : v ∈ l) : v ≤ l.foldl max a := by
  induction l generalizing a with
  | nil => cases hv
  | cons c t ih =>
      rw [List.foldl_cons]
      rcases List.mem_cons.mp hv with h | h
      · subst h
        exact le_trans (le_max_right _ _) (le_foldl_max t _)
      · exact ih (max a c) h

theorem foldl_max_mem (l : List ℚ) (a : ℚ) : l.foldl max a = a ∨ l.foldl max a ∈ l := by
  induction l generalizing a with
  | nil => exact Or.inl rfl
  | cons c t ih =>
      rw [List.foldl_cons]
      rcases ih (max a c) with h | h
      · rcases max_choice a c with hm | hm
        · exact Or.inl (by rw [h, hm])
        · exact Or.inr (by rw [h, hm]; exact List.mem_cons_self c t)
      · exact Or.inr (List.mem_cons_of_mem c h)

theorem slice_length (p : Poly) :
    ((p.coef.take p.degNat).drop 1).length = p.degNat - 1 := by
  simp only [List.length_drop, List.length_take, Poly.degNat]
  omega

/-- The non-leading, non-constant coefficients are exactly the members of the
slice `coef[1:deg]` the Cauchy-bound loop folds over. -/
theorem coef_slice_getD {p : Poly} {i : ℕ} (h1 : 1 ≤ i) (h2 : i < p.degNat) :
    p.coef.getD i 0 ∈ (p.coef.take p.degNat).drop 1 := by
  have hdn : p.degNat ≤ p.coef.length := Nat.sub_le _ _
  have hi : i < p.coef.length := lt_of_lt_of_le h2 hdn
  rw [List.mem_iff_getElem]
  refine ⟨i - 1, by rw [slice_length]; omega, ?_⟩
  rw [List.getElem_drop, List.getElem_take, List.getD_eq_getElem _ _ hi]
  simp only [show 1 + (i - 1) = i from by omega]

theorem cauchyBoundVal_eq (p : Poly) :
    cauchyBoundVal p = 1 + (((p.coef.take p.degNat).drop 1).map
        fun c => |c * (1 / p.coef.getD p.degNat 0)|).foldl max
        |p.coef.getD 0 0 * (1 / p.coef.getD p.degNat 0)| := rfl

/-- The Cauchy-bound fold dominates every relative coefficient
`|coef[i] / lead|`, `i = 0 .. deg - 1`. -/
theorem cauchyBoundVal_le {p : Poly} :
    ∀ i < p.degNat, |p.coef.getD i 0 / p.coef.getD p.degNat 0| ≤ cauchyBoundVal p - 1 := by
  intro i hi
  rw [div_eq_mul_one_div, cauchyBoundVal_eq, add_sub_cancel_left]
  rcases Nat.eq_zero_or_pos i with h0 | hpos
  · subst h0
    exact le_foldl_max _ _
  · exact foldl_max_le _ (List.mem_map.mpr ⟨p.coef.getD i 0, coef_slice_getD hpos hi, rfl⟩)

/-- The Cauchy-bound fold is attained at some relative coefficient. -/
theorem cauchyBoundVal_attained {p : Poly} (hd : 1 ≤ p.degNat) :
    ∃ i < p.degNat, cauchyBoundVal p - 1 = |p.coef.getD i 0 / p.coef.getD p.degNat 0| := by
  rw [cauchyBoundVal_eq, add_sub_cancel_left]
  rcases foldl_max_mem (((p.coef.take p.degNat).drop 1).map
      fun c => |c * (1 / p.coef.getD p.degNat 0)|)
      |p.coef.getD 0 0 * (1 / p.coef.getD p.degNat 0)| with h | h
  · exact ⟨0, hd, by rw [h, mul_one_div]⟩
  · obtain ⟨c, hc, hmap⟩ := List.mem_map.mp h
    obtain ⟨j, hj, hcj⟩ := List.mem_iff_getElem.mp hc
    have hjlt : j < p.degNat - 1 := by rwa [slice_length] at hj
    have hdn : p.degNat ≤ p.coef.length := Nat.sub_le _ _
    refine ⟨j + 1, by omega, ?_⟩
    have hc' : c = p.coef.getD (j + 1) 0 := by
      rw [← hcj, List.getElem_drop, List.getElem_take,
        List.getD_eq_getElem _ _ (show j + 1 < p.coef.length by omega)]
      simp only [show 1 + j = j + 1 from by omega]
    rw [← hmap, hc', mul_one_div]

/-- A well-formed polynomial of degree at least 1 has a nonzero leading
coefficient, read off through `getD`. -/
theorem wf_lead_getD_ne_zero {p : Poly} (hwf : Wf p) (hd : 1 ≤ p.degNat) :
    p.coef.getD p.degNat 0 ≠ 0 := by
  have hne : p.coef ≠ [] := hwf.1
  have hlen : 0 < p.coef.length := List.length_pos.mpr hne
  have hz : ¬ p.IsZero := by
    rw [isZero_iff]
    intro h
    rw [show p.degNat = 0 from by simp [Poly.degNat, h]] at hd
    exact absurd hd (by omega)
  have hrev := wf_lead_ne_zero hwf hz
  intro h0
  apply hrev
  rw [List.getD_eq_getElem _ _ (by simpa using hlen), List.getElem_reverse, ← h0,
    List.getD_eq_getElem _ _ (show p.degNat < p.coef.length by
      simp only [Poly.degNat]; omega)]
  simp only [Poly.degNat, Nat.sub_zero]

/-- `Poly.AtR` as a power sum of the (real casts of the) coefficients. -/
theorem AtR_eq_sum (p : Poly) (x : ℝ) :
    p.AtR x = ∑ i ∈ Finset.range p.coef.length, (p.coef.getD i 0 : ℝ) * x ^ i := by
  have h : p.AtR x = hornerAsc (p.coef.map (Rat.cast : ℚ → ℝ)) x := rfl
  rw [h, hornerAsc_eq_sum, List.length_map]
  refine Finset.sum_congr rfl fun i hi => ?_
  have hi' : i < p.coef.length := Finset.mem_range.mp hi
  rw [List.getD_eq_getElem _ _ (by simpa using hi'), List.getD_eq_getElem _ _ hi',
    List.getElem_map]

/-- The real Cauchy root bound: every real root of a well-formed polynomial
of degree at least 1 has absolute value at most `cauchyBoundVal p`. -/
theorem cauchy_root_bound (p : Poly) (hwf : Wf p) (hd : 1 ≤ p.degNat) :
    ∀ x : ℝ, p.AtR x = 0 → |x| ≤ (cauchyBoundVal p : ℝ) := by
  intro x hroot
  by_contra hgt
  push_neg at hgt
  set n := p.degNat with hn
  have hlen : p.coef.length = n + 1 := by
    have h0 : p.coef.length ≠ 0 := fun h => hwf.1 (List.length_eq_zero.mp h)
    simp only [hn, Poly.degNat]
    omega
  have hlead : p.coef.getD n 0 ≠ 0 := wf_lead_getD_ne_zero hwf hd
  set M : ℚ := cauchyBoundVal p - 1 with hM
  have hM0 : (0 : ℚ) ≤ M := le_trans (abs_nonneg _) (cauchyBoundVal_le 0 hd)
  have hMreal : (0 : ℝ) ≤ (M : ℝ) := by exact_mod_cast hM0
  have hBM : cauchyBoundVal p = 1 + M := by rw [hM]; ring
  have hgt' : (1 : ℝ) + (M : ℝ) < |x| := by
    rw [hBM] at hgt
    push_cast at hgt
    linarith
  have hx1 : (1 : ℝ) < |x| := by linarith
  have hcoefR : ∀ i < n, |(p.coef.getD i 0 : ℝ)| ≤ (M : ℝ) * |(p.coef.getD n 0 : ℝ)| := by
    intro i hi
    have h1 : |p.coef.getD i 0 / p.coef.getD n 0| ≤ M := cauchyBoundVal_le i hi
    rw [abs_div] at h1
    have h2 : |p.coef.getD i 0| ≤ M * |p.coef.getD n 0| :=
      (div_le_iff₀ (abs_pos.mpr hlead)).mp h1
    exact_mod_cast h2
  have hsum : (0 : ℝ) = ∑ i ∈ Finset.range (n + 1), (p.coef.getD i 0 : ℝ) * x ^ i := by
    rw [← hroot, AtR_eq_sum, hlen]
  rw [Finset.sum_range_succ] at hsum
  have hmain : (p.coef.getD n 0 : ℝ) * x ^ n
      = -∑ i ∈ Finset.range n, (p.coef.getD i 0 : ℝ) * x ^ i := by linarith
  set L : ℝ := |(p.coef.getD n 0 : ℝ)| with hL
  have hLpos : 0 < L := abs_pos.mpr (by exact_mod_cast hlead)
  have habs : L * |x| ^ n ≤ (M : ℝ) * L * ∑ i ∈ Finset.range n, |x| ^ i := by
    calc L * |x| ^ n = |(p.coef.getD n 0 : ℝ) * x ^ n| := by rw [abs_mul, abs_pow]
      _ = |∑ i ∈ Finset.range n, (p.coef.getD i 0 : ℝ) * x ^ i| := by rw [hmain, abs_neg]
      _ ≤ ∑ i ∈ Finset.range n, |(p.coef.getD i 0 : ℝ) * x ^ i| :=
          Finset.abs_sum_le_sum_abs _ _
      _ ≤ ∑ i ∈ Finset.range n, (M : ℝ) * L * |x| ^ i := by
          refine Finset.sum_le_sum fun i hi => ?_
          rw [abs_mul, abs_pow]
          exact mul_le_mul_of_nonneg_right (hcoefR i (Finset.mem_range.mp hi))
            (pow_nonneg (abs_nonneg x) i)
      _ = (M : ℝ) * L * ∑ i ∈ Finset.range n, |x| ^ i := by rw [Finset.mul_sum]
  rw [geom_sum_eq (ne_of_gt hx1) n] at habs
  have hxm1 : (0 : ℝ) < |x| - 1 := by linarith
  have hpow : (0 : ℝ) < |x| ^ n := pow_pos (by linarith) n
  have hfinal : (M : ℝ) * L * ((|x| ^ n - 1) / (|x| - 1)) < L * |x| ^ n := by
    rw [show (M : ℝ) * L * ((|x| ^ n - 1) / (|x| - 1))
        = (M * L * (|x| ^ n - 1)) / (|x| - 1) from by ring, div_lt_iff₀ hxm1]
    nlinarith [mul_pos hLpos (mul_pos hpow (show (0 : ℝ) < |x| - 1 - (M : ℝ) by linarith)),
      mul_nonneg hLpos.le hMreal]
  linarith

/-- C7: for a non-constant polynomial, `FindRoots(p)` delegates to
`FindRootsWithin(p, -B, B)` where `B = cauchyBoundVal p` is exactly Cauchy's
bound `1 + max |coef[i] / lead|` over the non-leading coefficients (the fold
both dominates every relative coefficient and is attained at one), and every
real root of a well-formed such polynomial lies in `[-B, B]`; for a constant
polynomial `FindRoots` fails with `InvalidInput`. -/
theorem C7_find_roots (fuel : ℕ) (eps prec : ℚ) (hp : 0 < prec) (sqrtF : ℚ → ℚ)
    (p : Poly) :
    (p.deg = 0 → FindRoots fuel eps prec hp sqrtF p = some (.error .invalidInput)) ∧
    (p.deg ≠ 0 → FindRoots fuel eps prec hp sqrtF p
        = FindRootsWithin fuel eps prec hp sqrtF p (-(cauchyBoundVal p)) (cauchyBoundVal p)) ∧
    (∀ i < p.degNat, |p.coef.getD i 0 / p.coef.getD p.degNat 0| ≤ cauchyBoundVal p - 1) ∧
    (1 ≤ p.degNat → ∃ i < p.degNat,
        cauchyBoundVal p - 1 = |p.coef.getD i 0 / p.coef.getD p.degNat 0|) ∧
    (Wf p → 1 ≤ p.degNat →
        ∀ x : ℝ, p.AtR x = 0 → |x| ≤ (cauchyBoundVal p : ℝ)) := by
  refine ⟨fun h => ?_, fun h => ?_, fun i hi => cauchyBoundVal_le i hi,
    fun hd => cauchyBoundVal_attained hd, fun hwf hd => cauchy_root_bound p hwf hd⟩
  · simp only [FindRoots, Poly.CauchyBound, if_pos h]
  · simp only [FindRoots, Poly.CauchyBound, if_neg h]

/-- C7 witness: `p = x² - x` (the repository's own `Test_CauchyBound`
vector): the bound evaluates to `2`, `FindRoots` equals `FindRootsWithin` on
`(-2, 2]`, and every real root lies in `[-2, 2]`. -/
theorem C7_witness :
    cauchyBoundVal (NewPoly [1, -1, 0]) = 2 ∧
    (NewPoly [1, -1, 0]).deg ≠ 0 ∧
    FindRoots 1 epsilon0 bisectPrecision0 bisectPrecision0_pos (fun q => q) (NewPoly [1, -1, 0])
      = FindRootsWithin 1 epsilon0 bisectPrecision0 bisectPrecision0_pos (fun q => q)
          (NewPoly [1, -1, 0]) (-(cauchyBoundVal (NewPoly [1, -1, 0])))
          (cauchyBoundVal (NewPoly [1, -1, 0])) ∧
    Wf (NewPoly [1, -1, 0]) ∧ 1 ≤ (NewPoly [1, -1, 0]).degNat ∧
    (∀ x : ℝ, (NewPoly [1, -1, 0]).AtR x = 0
        → |x| ≤ (cauchyBoundVal (NewPoly [1, -1, 0]) : ℝ)) := by
  have hdeg : (NewPoly [1, -1, 0]).deg ≠ 0 := by
    norm_num [NewPoly, newPolyNoReverse, removeTrailingZeroes, stripRev, Poly.deg]
  have hwf : Wf (NewPoly [1, -1, 0]) := by
    simp [Wf, NewPoly, newPolyNoReverse, removeTrailingZeroes, stripRev]
  have hd1 : 1 ≤ (NewPoly [1, -1, 0]).degNat := by
    norm_num [NewPoly, newPolyNoReverse, removeTrailingZeroes, stripRev, Poly.degNat]
  have hB : cauchyBoundVal (NewPoly [1, -1, 0]) = 2 := by
    norm_num [cauchyBoundVal, NewPoly, newPolyNoReverse, removeTrailingZeroes, stripRev,
      Poly.degNat, abs_of_nonneg, abs_of_nonpos]
  exact ⟨hB, hdeg,
    (C7_find_roots 1 epsilon0 bisectPrecision0 bisectPrecision0_pos (fun q => q)
      (NewPoly [1, -1, 0])).2.1 hdeg,
    hwf, hd1,
    (C7_find_roots 1 epsilon0 bisectPrecision0 bisectPrecision0_pos (fun q => q)
      (NewPoly [1, -1, 0])).2.2.2.2 hwf hd1⟩

/-! ## C2: naive and FFT-based polynomial multiplication

`Poly.Mul` is the quadratic double loop `prodCoef[i+j] += p.coef[i]*q.coef[j]`
over a slice of length `p.deg + q.deg + 1`.  `Poly.MulFast` zero-pads both
coefficient slices to the next power of two, converts to complex numbers,
applies the go-dsp radix-2 FFT, multiplies pointwise, inverts, takes real
parts, cuts the slice off at `p.deg + q.deg + 1` entries and strips.  The
FFT of the library is embedded as the discrete Fourier transform it
computes (forward kernel `exp(-2πi·kn/N)`, inverse kernel `exp(2πi·kn/N)`
scaled by `1/N`), over exact complex arithmetic; the float64 result slice
is a list of real numbers, so the fast product is modelled as its
coefficient slice `Poly.MulFastCoef : List ℝ` and compared with the real
cast of the naive product's slice. -/

/-- Entry `k` of the double-loop product slice: the sum of
`p.coef[i] * q.coef[j]` over all `i < len p`, `j < len q` with `i + j = k`. -/
def convEntry (a b : List ℚ) (k : ℕ) : ℚ :=
  ∑ i ∈ Finset.range a.length, ∑ j ∈ Finset.range b.length,
    if i + j = k then a.getD i 0 * b.getD j 0 else 0

/-- The product coefficient slice of `Poly.Mul`, of length
`deg p + deg q + 1 = len p + len q - 1` (an `int` expression in Go). -/
def mulCoef (a b : List ℚ) : List ℚ :=
  (List.range ((a.length + b.length : ℤ) - 1).toNat).map (convEntry a b)

/-- `Poly.Mul` from `poly.go`: the quadratic-time product, stripped. -/
def Poly.Mul (p q : Poly) : Poly :=
  newPolyNoReverse (mulCoef p.coef q.coef)

/-- `expand` from `util.go`: pad with trailing zeroes to length `n` (no
change if `n <= len s`). -/
def expand (s : List ℚ) (n : ℕ) : List ℚ :=
  if n ≤ s.length then s else s ++ List.replicate (n - s.length) 0

/-- `nextPOT` from `util.go`: the least power of two that is at least `n`
(`1` for `n = 0`; Go computes `2^⌈log n / ln 2⌉` through floats). -/
def nextPOT (n : ℕ) : ℕ := 2 ^ Nat.clog 2 n

/-- `toComplex128` from `util.go`. -/
noncomputable def toComplex (s : List ℚ) : List ℂ := s.map (Rat.cast : ℚ → ℂ)

/-- `toFloat64` from `util.go`: real parts. -/
def toFloat64 (s : List ℂ) : List ℝ := s.map Complex.re

/-- The discrete Fourier transform computed by `fft.FFT` of go-dsp:
`X[k] = Σ_n x[n]·exp(-2πi·kn/N)`. -/
noncomputable def dft (x : List ℂ) : List ℂ :=
  (List.range x.length).map fun k =>
    ∑ n ∈ Finset.range x.length, x.getD n 0 *
      Complex.exp (-(2 * Real.pi * Complex.I) * ((k * n : ℕ) : ℂ) / (x.length : ℂ))

/-- The inverse transform computed by `fft.IFFT` of go-dsp:
`x[n] = (Σ_k X[k]·exp(2πi·kn/N)) / N`. -/
noncomputable def idft (x : List ℂ) : List ℂ :=
  (List.range x.length).map fun n =>
    (∑ k ∈ Finset.range x.length, x.getD k 0 *
      Complex.exp ((2 * Real.pi * Complex.I) * ((k * n : ℕ) : ℂ) / (x.length : ℂ)))
      / (x.length : ℂ)

/-- The pointwise-multiplication loop of `Poly.MulFast`. -/
noncomputable def pointwiseMul (a b : List ℂ) : List ℂ :=
  (List.range a.length).map fun i => a.getD i 0 * b.getD i 0

/-- `stripRev` over real slices (the float64 comparisons of
`removeTrailingZeroes`, idealized as exact). -/
noncomputable def stripRevR : List ℝ → List ℝ
  | [] => []
  | [c] => [c]
  | c :: rest => if c = 0 then stripRevR rest else c :: rest

/-- `removeTrailingZeroes` over real slices. -/
noncomputable def removeTrailingZeroesR (s : List ℝ) : List ℝ :=
  (stripRevR s.reverse).reverse

/-- `Poly.MulFast` from `poly.go`: scalar shortcuts for constant factors;
otherwise the padded FFT / pointwise product / inverse FFT pipeline, real
parts cut off at `p.deg + q.deg + 1` entries, stripped.  The result slice
is real-valued, so the coefficient slice is returned. -/
noncomputable def Poly.MulFastCoef (p q : Poly) : List ℝ :=
  if p.deg = 0 then (q.MulScalar (p.coef.getD 0 0)).coef.map (Rat.cast : ℚ → ℝ)
  else if q.deg = 0 then (p.MulScalar (q.coef.getD 0 0)).coef.map (Rat.cast : ℚ → ℝ)
  else
    let prodlen := (p.deg + q.deg + 1).toNat
    let potlen := nextPOT prodlen
    let a := dft (toComplex (expand p.coef potlen))
    let b := dft (toComplex (expand q.coef potlen))
    removeTrailingZeroesR ((toFloat64 (idft (pointwiseMul a b))).take prodlen)

/-! ### Entry and length lemmas for the FFT pipeline -/

theorem getD_map_range {α : Type} (z : α) (f : ℕ → α) (L k : ℕ) (hk : k < L) :
    ((List.range L).map f).getD k z = f k := by
  rw [List.getD_eq_getElem _ _ (by simpa using hk), List.getElem_map, List.getElem_range]

theorem expand_length {s : List ℚ} {n : ℕ} (h : s.length ≤ n) :
    (expand s n).length = n := by
  rw [expand]
  split_ifs with h'
  · omega
  · simp only [List.length_append, List.length_replicate]
    omega

theorem expand_getD (s : List ℚ) (n i : ℕ) : (expand s n).getD i 0 = s.getD i 0 := by
  rw [expand]
  split_ifs with h'
  · rfl
  · by_cases hi : i < s.length
    · rw [List.getD_eq_getElem _ _ hi,
        List.getD_eq_getElem _ _ (by simp only [List.length_append]; omega),
        List.getElem_append_left hi]
    · have hs : s.getD i 0 = 0 := List.getD_eq_default _ _ (by omega)
      rw [hs]
      rcases Nat.lt_or_ge i (s ++ List.replicate (n - s.length) (0 : ℚ)).length with h2 | h2
      · rw [List.getD_eq_getElem _ _ h2, List.getElem_append_right (by omega)]
        exact List.getElem_replicate _ _
      · rw [List.getD_eq_default _ _ h2]

theorem toComplex_length (s : List ℚ) : (toComplex s).length = s.length := by
  simp [toComplex]

theorem toComplex_getD (s : List ℚ) (i : ℕ) :
    (toComplex s).getD i 0 = ((s.getD i 0 : ℚ) : ℂ) := by
  by_cases hi : i < s.length
  · rw [List.getD_eq_getElem _ _ (by simpa [toComplex] using hi),
      List.getD_eq_getElem _ _ hi]
    simp [toComplex]
  · rw [List.getD_eq_default _ _ (by simpa [toComplex] using not_lt.mp hi),
      List.getD_eq_default _ _ (not_lt.mp hi)]
    norm_num

theorem dft_length (x : List ℂ) : (dft x).length = x.length := by
  simp [dft]

theorem dft_getD (x : List ℂ) {k : ℕ} (hk : k < x.length) :
    (dft x).getD k 0 = ∑ n ∈ Finset.range x.length, x.getD n 0 *
      Complex.exp (-(2 * Real.pi * Complex.I) * ((k * n : ℕ) : ℂ) / (x.length : ℂ)) := by
  rw [dft]
  exact getD_map_range _ _ _ _ hk

theorem idft_length (x : List ℂ) : (idft x).length = x.length := by
  simp [idft]

theorem idft_getD (x : List ℂ) {n : ℕ} (hn : n < x.length) :
    (idft x).getD n 0 = (∑ k ∈ Finset.range x.length, x.getD k 0 *
      Complex.exp ((2 * Real.pi * Complex.I) * ((k * n : ℕ) : ℂ) / (x.length : ℂ)))
      / (x.length : ℂ) := by
  rw [idft]
  exact getD_map_range _ _ _ _ hn

theorem pointwiseMul_length (a b : List ℂ) : (pointwiseMul a b).length = a.length := by
  simp [pointwiseMul]

theorem pointwiseMul_getD (a b : List ℂ) {i : ℕ} (hi : i < a.length) :
    (pointwiseMul a b).getD i 0 = a.getD i 0 * b.getD i 0 := by
  rw [pointwiseMul]
  exact getD_map_range _ _ _ _ hi

theorem le_nextPOT (n : ℕ) : n ≤ nextPOT n := Nat.le_pow_clog one_lt_two n

/-! ### The DFT pipeline computes the convolution -/

theorem exp_pos_pow (N m : ℕ) :
    Complex.exp ((2 * Real.pi * Complex.I) * (m : ℂ) / (N : ℂ))
      = Complex.exp (2 * Real.pi * Complex.I / (N : ℂ)) ^ m := by
  rw [← Complex.exp_nat_mul]
  congr 1
  ring

theorem exp_neg_pow (N m : ℕ) :
    Complex.exp (-(2 * Real.pi * Complex.I) * (m : ℂ) / (N : ℂ))
      = (Complex.exp (2 * Real.pi * Complex.I / (N : ℂ)) ^ m)⁻¹ := by
  rw [← exp_pos_pow N m, ← Complex.exp_neg]
  congr 1
  ring

theorem zpow_collapse (ω : ℂ) (hω : ω ≠ 0) (n k i j : ℕ) :
    (ω ^ (k * i))⁻¹ * (ω ^ (k * j))⁻¹ * ω ^ (k * n)
      = (ω ^ ((n : ℤ) - i - j)) ^ k := by
  have h1 : (ω ^ ((n : ℤ) - i - j)) ^ k = ω ^ (((n : ℤ) - i - j) * k) := by
    rw [← zpow_natCast (ω ^ ((n : ℤ) - i - j)) k, ← zpow_mul]
  rw [h1, ← zpow_natCast ω (k * i), ← zpow_natCast ω (k * j), ← zpow_natCast ω (k * n),
    ← zpow_neg, ← zpow_neg, ← zpow_add₀ hω, ← zpow_add₀ hω]
  congr 1
  push_cast
  ring

/-- Geometric-sum orthogonality: the powers of a nontrivial `N`-th root of
unity `ω^m` (`-N < m < N`, `m ≠ 0`) sum to zero over a full period. -/
theorem geom_block {N : ℕ} (hpos : 0 < N) {ω : ℂ} (hprim : IsPrimitiveRoot ω N)
    {m : ℤ} (hm1 : -(N : ℤ) < m) (hm2 : m < N) (hm0 : m ≠ 0) :
    ∑ k ∈ Finset.range N, (ω ^ m) ^ k = 0 := by
  have hne1 : ω ^ m ≠ 1 := by
    intro h1
    rw [hprim.zpow_eq_one_iff_dvd] at h1
    obtain ⟨c, hc⟩ := h1
    have hNpos : (0 : ℤ) < N := by exact_mod_cast hpos
    rw [hc] at hm1 hm2 hm0
    have hc0 : c = 0 := by
      rcases lt_trichotomy c 0 with h | h | h
      · nlinarith
      · exact h
      · nlinarith
    exact hm0 (by rw [hc0, mul_zero])
  have hζN : (ω ^ m) ^ N = 1 := by
    rw [← zpow_natCast (ω ^ m) N, ← zpow_mul, mul_comm, zpow_mul, zpow_natCast,
      hprim.pow_eq_one, one_zpow]
  rw [geom_sum_eq hne1, hζN]
  simp

/-- The heart of `MulFast`: entry `n` of the
pad–DFT–pointwise-multiply–inverse pipeline is the (complex cast of the)
convolution entry `convEntry a b n`, whenever the padding length `N` can
hold the full linear convolution. -/
theorem idft_pointwise_dft (a b : List ℚ) (N : ℕ) (hpos : 0 < N)
    (ha : a.length ≤ N) (hb : b.length ≤ N) (hab : a.length + b.length ≤ N + 1)
    {n : ℕ} (hn : n < N) :
    (idft (pointwiseMul (dft (toComplex (expand a N)))
        (dft (toComplex (expand b N))))).getD n 0
      = ((convEntry a b n : ℚ) : ℂ) := by
  set ω : ℂ := Complex.exp (2 * Real.pi * Complex.I / (N : ℂ)) with hωdef
  have hNne : (N : ℂ) ≠ 0 := Nat.cast_ne_zero.mpr hpos.ne'
  have hprim : IsPrimitiveRoot ω N := Complex.isPrimitiveRoot_exp N hpos.ne'
  have hωne : ω ≠ 0 := Complex.exp_ne_zero _
  set A := dft (toComplex (expand a N)) with hA
  set B := dft (toComplex (expand b N)) with hB
  have hlenA : (toComplex (expand a N)).length = N := by
    rw [toComplex_length, expand_length ha]
  have hlenB : (toComplex (expand b N)).length = N := by
    rw [toComplex_length, expand_length hb]
  have hAlen : A.length = N := by rw [hA, dft_length, hlenA]
  have hBlen : B.length = N := by rw [hB, dft_length, hlenB]
  have hPlen : (pointwiseMul A B).length = N := by rw [pointwiseMul_length, hAlen]
  have hAk : ∀ k, k < N →
      A.getD k 0 = ∑ i ∈ Finset.range N, ((a.getD i 0 : ℚ) : ℂ) * (ω ^ (k * i))⁻¹ := by
    intro k hk
    rw [hA, dft_getD _ (by rw [hlenA]; exact hk), hlenA]
    refine Finset.sum_congr rfl fun i _ => ?_
    rw [toComplex_getD, expand_getD, exp_neg_pow]
  have hBk : ∀ k, k < N →
      B.getD k 0 = ∑ j ∈ Finset.range N, ((b.getD j 0 : ℚ) : ℂ) * (ω ^ (k * j))⁻¹ := by
    intro k hk
    rw [hB, dft_getD _ (by rw [hlenB]; exact hk), hlenB]
    refine Finset.sum_congr rfl fun j _ => ?_
    rw [toComplex_getD, expand_getD, exp_neg_pow]
  rw [idft_getD _ (by rw [hPlen]; exact hn), hPlen]
  have hterm : ∀ k ∈ Finset.range N,
      (pointwiseMul A B).getD k 0 *
          Complex.exp ((2 * Real.pi * Complex.I) * ((k * n : ℕ) : ℂ) / (N : ℂ))
        = ∑ i ∈ Finset.range N, ∑ j ∈ Finset.range N,
            ((a.getD i 0 : ℚ) : ℂ) * ((b.getD j 0 : ℚ) : ℂ)
              * (ω ^ ((n : ℤ) - i - j)) ^ k := by
    intro k hk
    rw [pointwiseMul_getD _ _ (by rw [hAlen]; exact Finset.mem_range.mp hk),
      hAk k (Finset.mem_range.mp hk), hBk k (Finset.mem_range.mp hk),
      exp_pos_pow, Finset.sum_mul_sum, Finset.sum_mul]
    refine Finset.sum_congr rfl fun i _ => ?_
    rw [Finset.sum_mul]
    refine Finset.sum_congr rfl fun j _ => ?_
    rw [← zpow_collapse ω hωne n k i j]
    ring
  rw [Finset.sum_congr rfl hterm, Finset.sum_comm]
  have hswap : ∀ i ∈ Finset.range N,
      (∑ k ∈ Finset.range N, ∑ j ∈ Finset.range N,
        ((a.getD i 0 : ℚ) : ℂ) * ((b.getD j 0 : ℚ) : ℂ) * (ω ^ ((n : ℤ) - i - j)) ^ k)
      = ∑ j ∈ Finset.range N, ∑ k ∈ Finset.range N,
        ((a.getD i 0 : ℚ) : ℂ) * ((b.getD j 0 : ℚ) : ℂ) * (ω ^ ((n : ℤ) - i - j)) ^ k :=
    fun i _ => Finset.sum_comm
  rw [Finset.sum_congr rfl hswap]
  have hinner : ∀ i ∈ Finset.range N, ∀ j ∈ Finset.range N,
      (∑ k ∈ Finset.range N,
        ((a.getD i 0 : ℚ) : ℂ) * ((b.getD j 0 : ℚ) : ℂ) * (ω ^ ((n : ℤ) - i - j)) ^ k)
      = (if i + j = n then ((a.getD i 0 : ℚ) : ℂ) * ((b.getD j 0 : ℚ) : ℂ) else 0)
          * (N : ℂ) := by
    intro i hi j hj
    rw [← Finset.mul_sum]
    by_cases hij : i + j = n
    · rw [if_pos hij]
      have hz : ((n : ℤ) - i - j) = 0 := by omega
      rw [hz, zpow_zero]
      simp
    · rw [if_neg hij, zero_mul]
      by_cases hcoef : a.getD i 0 * b.getD j 0 = 0
      · have hc : ((a.getD i 0 : ℚ) : ℂ) * ((b.getD j 0 : ℚ) : ℂ) = 0 := by
          exact_mod_cast hcoef
        rw [hc, zero_mul]
      · have hia : i < a.length := by
          by_contra hia
          exact hcoef (by rw [List.getD_eq_default _ _ (not_lt.mp hia), zero_mul])
        have hjb : j < b.length := by
          by_contra hjb
          exact hcoef (by rw [List.getD_eq_default _ _ (not_lt.mp hjb), mul_zero])
        have hgeo : ∑ k ∈ Finset.range N, (ω ^ ((n : ℤ) - i - j)) ^ k = 0 :=
          geom_block hpos hprim (by omega) (by omega) (by omega)
        rw [hgeo, mul_zero]
  rw [Finset.sum_congr rfl (fun i hi => Finset.sum_congr rfl (fun j hj => hinner i hi j hj))]
  have hfactor : ∀ i ∈ Finset.range N,
      (∑ j ∈ Finset.range N,
        (if i + j = n then ((a.getD i 0 : ℚ) : ℂ) * ((b.getD j 0 : ℚ) : ℂ) else 0) * (N : ℂ))
      = (∑ j ∈ Finset.range N,
          if i + j = n then ((a.getD i 0 : ℚ) : ℂ) * ((b.getD j 0 : ℚ) : ℂ) else 0)
          * (N : ℂ) :=
    fun i _ => (Finset.sum_mul _ _ _).symm
  rw [Finset.sum_congr rfl hfactor, ← Finset.sum_mul, mul_div_assoc,
    div_self hNne, mul_one]
  have hcast : ((convEntry a b n : ℚ) : ℂ)
      = ∑ i ∈ Finset.range a.length, ∑ j ∈ Finset.range b.length,
          if i + j = n then ((a.getD i 0 : ℚ) : ℂ) * ((b.getD j 0 : ℚ) : ℂ) else 0 := by
    rw [convEntry]
    push_cast [apply_ite (Rat.cast : ℚ → ℂ)]
    rfl
  rw [hcast]
  have hext_inner : ∀ i : ℕ,
      (∑ j ∈ Finset.range b.length,
        if i + j = n then ((a.getD i 0 : ℚ) : ℂ) * ((b.getD j 0 : ℚ) : ℂ) else 0)
      = ∑ j ∈ Finset.range N,
          if i + j = n then ((a.getD i 0 : ℚ) : ℂ) * ((b.getD j 0 : ℚ) : ℂ) else 0 := by
    intro i
    refine Finset.sum_subset (Finset.range_subset.mpr hb) fun j _ hj => ?_
    rw [List.getD_eq_default b _ (by simpa using hj)]
    simp
  have hext_outer :
      (∑ i ∈ Finset.range a.length, ∑ j ∈ Finset.range N,
        if i + j = n then ((a.getD i 0 : ℚ) : ℂ) * ((b.getD j 0 : ℚ) : ℂ) else 0)
      = ∑ i ∈ Finset.range N, ∑ j ∈ Finset.range N,
          if i + j = n then ((a.getD i 0 : ℚ) : ℂ) * ((b.getD j 0 : ℚ) : ℂ) else 0 := by
    refine Finset.sum_subset (Finset.range_subset.mpr ha) fun i _ hi => ?_
    refine Finset.sum_eq_zero fun j _ => ?_
    rw [List.getD_eq_default a _ (by simpa using hi)]
    simp
  rw [Finset.sum_congr rfl fun i _ => hext_inner i, hext_outer]

theorem nextPOT_pos (n : ℕ) : 0 < nextPOT n := by
  rw [nextPOT]
  positivity

/-! ### Assembling `MulFast` -/

theorem mulCoef_length (a b : List ℚ) :
    (mulCoef a b).length = ((a.length + b.length : ℤ) - 1).toNat := by
  simp [mulCoef]

theorem stripRevR_cons₂ (c d : ℝ) (u : List ℝ) :
    stripRevR (c :: d :: u) = if c = 0 then stripRevR (d :: u) else c :: d :: u := rfl

theorem stripRevR_map_cast (l : List ℚ) :
    stripRevR (l.map (Rat.cast : ℚ → ℝ)) = (stripRev l).map (Rat.cast : ℚ → ℝ) := by
  induction l with
  | nil => rfl
  | cons c t ih =>
      cases t with
      | nil => rfl
      | cons d u =>
          rw [List.map_cons, List.map_cons, stripRevR_cons₂, stripRev_cons₂]
          by_cases hc : c = 0
          · rw [if_pos (show ((c : ℚ) : ℝ) = 0 by exact_mod_cast hc), if_pos hc,
              ← List.map_cons, ih]
          · rw [if_neg (show ¬ ((c : ℚ) : ℝ) = 0 by exact_mod_cast hc), if_neg hc,
              List.map_cons, List.map_cons]

theorem toFloat64_getD (s : List ℂ) {i : ℕ} (hi : i < s.length) :
    (toFloat64 s).getD i 0 = (s.getD i 0).re := by
  rw [toFloat64, List.getD_eq_getElem _ _ (by simpa using hi),
    List.getD_eq_getElem _ _ hi, List.getElem_map]

theorem removeTrailingZeroesR_map_cast (l : List ℚ) :
    removeTrailingZeroesR (l.map (Rat.cast : ℚ → ℝ))
      = (removeTrailingZeroes l).map (Rat.cast : ℚ → ℝ) := by
  rw [removeTrailingZeroesR, removeTrailingZeroes, ← List.map_reverse, stripRevR_map_cast,
    List.map_reverse]

set_option maxHeartbeats 1000000 in
/-- The truncated real-part slice of the FFT pipeline equals the naive
product slice (cast to the reals), entry for entry. -/
theorem fast_slice_eq (p q : Poly) (hp : p.coef ≠ []) (hq : q.coef ≠ []) :
    (toFloat64 (idft (pointwiseMul
        (dft (toComplex (expand p.coef (nextPOT (p.deg + q.deg + 1).toNat))))
        (dft (toComplex (expand q.coef (nextPOT (p.deg + q.deg + 1).toNat))))))).take
        (p.deg + q.deg + 1).toNat
      = (mulCoef p.coef q.coef).map (Rat.cast : ℚ → ℝ) := by
  have hla : 1 ≤ p.coef.length := List.length_pos.mpr hp
  have hlb : 1 ≤ q.coef.length := List.length_pos.mpr hq
  have hprodlen : (p.deg + q.deg + 1).toNat = p.coef.length + q.coef.length - 1 := by
    simp only [Poly.deg]
    omega
  set prodlen := (p.deg + q.deg + 1).toNat with hprod
  set N := nextPOT prodlen with hN
  have hprodN : prodlen ≤ N := le_nextPOT prodlen
  have hNpos : 0 < N := by
    have := nextPOT_pos prodlen
    omega
  have haN : p.coef.length ≤ N := by omega
  have hbN : q.coef.length ≤ N := by omega
  have habN : p.coef.length + q.coef.length ≤ N + 1 := by omega
  have hilen : (idft (pointwiseMul
      (dft (toComplex (expand p.coef N))) (dft (toComplex (expand q.coef N))))).length
      = N := by
    rw [idft_length, pointwiseMul_length, dft_length, toComplex_length,
      expand_length haN]
  apply List.ext_getElem
  · simp only [List.length_take, toFloat64, List.length_map, hilen, mulCoef_length]
    omega
  · intro m h1 h2
    have hmprod : m < prodlen := by
      simp only [List.length_take] at h1
      omega
    have hmN : m < N := by omega
    have htflen : (toFloat64 (idft (pointwiseMul
        (dft (toComplex (expand p.coef N)))
        (dft (toComplex (expand q.coef N)))))).length = N := by
      rw [toFloat64, List.length_map, hilen]
    have hleft : (toFloat64 (idft (pointwiseMul
        (dft (toComplex (expand p.coef N)))
        (dft (toComplex (expand q.coef N)))))).getD m 0
        = ((convEntry p.coef q.coef m : ℚ) : ℝ) := by
      rw [toFloat64_getD _ (by rw [hilen]; exact hmN),
        idft_pointwise_dft p.coef q.coef N hNpos haN hbN habN hmN]
      exact Complex.ratCast_re _
    rw [List.getElem_take, List.getElem_map,
      ← List.getD_eq_getElem _ 0 (by rw [htflen]; exact hmN), hleft]
    congr 1
    rw [← List.getD_eq_getElem _ 0 (by rw [mulCoef_length]; omega), mulCoef,
      getD_map_range _ _ _ _ (by omega)]

/-! ### The constant-factor shortcuts agree with the double loop -/

theorem removeTrailingZeroes_replicate_zero {n : ℕ} (hn : 1 ≤ n) :
    removeTrailingZeroes (List.replicate n (0 : ℚ)) = [0] := by
  rw [removeTrailingZeroes, List.reverse_replicate]
  have h : ∀ m, 1 ≤ m → stripRev (List.replicate m (0 : ℚ)) = [0] := by
    intro m
    induction m with
    | zero => intro h0; omega
    | succ k ih =>
        intro _
        rcases Nat.eq_zero_or_pos k with hk | hk
        · subst hk; rfl
        · obtain ⟨k', rfl⟩ : ∃ k', k = k' + 1 := ⟨k - 1, by omega⟩
          rw [List.replicate_succ, List.replicate_succ, stripRev_cons₂, if_pos rfl,
            ← List.replicate_succ, ih (by omega)]
  rw [h n hn]
  rfl

theorem mulCoef_const (c : ℚ) (b : List ℚ) :
    mulCoef [c] b = b.map (fun v => c * v) := by
  apply List.ext_getElem
  · rw [mulCoef_length, List.length_map]
    simp only [List.length_cons, List.length_nil]
    omega
  · intro k h1 h2
    have hk : k < b.length := by
      rw [List.length_map] at h2
      exact h2
    rw [← List.getD_eq_getElem _ 0 h1, mulCoef,
      getD_map_range _ _ _ _ (by rw [mulCoef_length] at h1; exact h1),
      List.getElem_map, convEntry]
    simp only [List.length_cons, List.length_nil, zero_add, Finset.sum_range_one,
      List.getD_cons_zero]
    rw [Finset.sum_ite_eq' (Finset.range b.length) k (fun j => c * b.getD j 0),
      if_pos (Finset.mem_range.mpr hk), List.getD_eq_getElem _ _ hk]

theorem mulCoef_const_right (a : List ℚ) (c : ℚ) :
    mulCoef a [c] = a.map (fun v => c * v) := by
  apply List.ext_getElem
  · rw [mulCoef_length, List.length_map]
    simp only [List.length_cons, List.length_nil]
    omega
  · intro k h1 h2
    have hk : k < a.length := by
      rw [List.length_map] at h2
      exact h2
    rw [← List.getD_eq_getElem _ 0 h1, mulCoef,
      getD_map_range _ _ _ _ (by rw [mulCoef_length] at h1; exact h1),
      List.getElem_map, convEntry]
    simp only [List.length_cons, List.length_nil, zero_add, Finset.sum_range_one, add_zero,
      List.getD_cons_zero]
    rw [Finset.sum_ite_eq' (Finset.range a.length) k (fun i => a.getD i 0 * c),
      if_pos (Finset.mem_range.mpr hk), List.getD_eq_getElem _ _ hk, mul_comm]

theorem mul_constant_left {p q : Poly} (h : p.deg = 0) (hq : q.coef ≠ []) :
    p.Mul q = q.MulScalar (p.coef.getD 0 0) := by
  have hlen : p.coef.length = 1 := by
    simp only [Poly.deg] at h
    omega
  have hlq : 1 ≤ q.coef.length := List.length_pos.mpr hq
  obtain ⟨c, hc⟩ := List.length_eq_one.mp hlen
  rw [Poly.Mul, Poly.MulScalar, hc]
  simp only [List.getD_cons_zero]
  rw [mulCoef_const]
  by_cases hc0 : c = 0
  · rw [if_pos hc0]
    subst hc0
    have hmap : q.coef.map (fun v => (0 : ℚ) * v) = List.replicate q.coef.length 0 := by
      rw [show (fun v : ℚ => (0 : ℚ) * v) = fun _ => (0 : ℚ) from funext fun v => zero_mul v,
        List.map_const']
    rw [hmap, newPolyNoReverse, NewPoly, newPolyNoReverse]
    congr 1
    exact removeTrailingZeroes_replicate_zero hlq
  · rw [if_neg hc0]

theorem mul_constant_right {p q : Poly} (h : q.deg = 0) (hp : p.coef ≠ []) :
    p.Mul q = p.MulScalar (q.coef.getD 0 0) := by
  have hlen : q.coef.length = 1 := by
    simp only [Poly.deg] at h
    omega
  have hlp : 1 ≤ p.coef.length := List.length_pos.mpr hp
  obtain ⟨c, hc⟩ := List.length_eq_one.mp hlen
  rw [Poly.Mul, Poly.MulScalar, hc]
  simp only [List.getD_cons_zero]
  rw [mulCoef_const_right]
  by_cases hc0 : c = 0
  · rw [if_pos hc0]
    subst hc0
    have hmap : p.coef.map (fun v => (0 : ℚ) * v) = List.replicate p.coef.length 0 := by
      rw [show (fun v : ℚ => (0 : ℚ) * v) = fun _ => (0 : ℚ) from funext fun v => zero_mul v,
        List.map_const']
    rw [hmap, newPolyNoReverse, NewPoly, newPolyNoReverse]
    congr 1
    exact removeTrailingZeroes_replicate_zero hlp
  · rw [if_neg hc0]

/-! ### Degree of the naive product -/

/-- A well-formed nonzero polynomial has a nonzero last coefficient. -/
theorem wf_last_ne_zero {p : Poly} (hwf : Wf p) (hz : ¬ p.IsZero) :
    p.coef.getD (p.coef.length - 1) 0 ≠ 0 := by
  have hrev := wf_lead_ne_zero hwf hz
  have hlen : 0 < p.coef.length := List.length_pos.mpr hwf.1
  intro h0
  apply hrev
  rw [List.getD_eq_getElem _ _ (by simpa using hlen), List.getElem_reverse, ← h0,
    List.getD_eq_getElem _ _ (by omega)]
  simp only [Nat.sub_zero]

/-- A list whose last entry is nonzero is left unchanged by
`removeTrailingZeroes`. -/
theorem removeTrailingZeroes_of_last_ne {l : List ℚ} (hne : l ≠ [])
    (hlast : l.getD (l.length - 1) 0 ≠ 0) : removeTrailingZeroes l = l := by
  have hlen : 0 < l.length := List.length_pos.mpr hne
  obtain ⟨c, t, hct⟩ : ∃ c t, l.reverse = c :: t := by
    cases hrev : l.reverse with
    | nil => exact absurd (by simpa using congrArg List.reverse hrev) hne
    | cons c t => exact ⟨c, t, rfl⟩
  have h1 : l.reverse.getD 0 0 = c := by rw [hct]; rfl
  have hrg : l.reverse.getD 0 0 = l.getD (l.length - 1) 0 := by
    rw [List.getD_eq_getElem _ _ (by simpa using hlen), List.getElem_reverse,
      List.getD_eq_getElem _ _ (by omega)]
    simp only [Nat.sub_zero]
  have hc : c ≠ 0 := by
    intro hc0
    apply hlast
    rw [← hrg, h1]
    exact hc0
  have hstrip : stripRev l.reverse = l.reverse := by
    rw [hct]
    cases t with
    | nil => rfl
    | cons d u => rw [stripRev_cons₂, if_neg hc]
  rw [removeTrailingZeroes, hstrip, List.reverse_reverse]

/-- The last entry of the product slice is the product of the leading
coefficients. -/
theorem convEntry_last {a b : List ℚ} (ha : a ≠ []) (hb : b ≠ []) :
    convEntry a b (a.length + b.length - 2)
      = a.getD (a.length - 1) 0 * b.getD (b.length - 1) 0 := by
  have hla : 1 ≤ a.length := List.length_pos.mpr ha
  have hlb : 1 ≤ b.length := List.length_pos.mpr hb
  rw [convEntry]
  have houter : ∀ i ∈ Finset.range a.length, i ≠ a.length - 1 →
      (∑ j ∈ Finset.range b.length,
        if i + j = a.length + b.length - 2 then a.getD i 0 * b.getD j 0 else 0) = 0 := by
    intro i hi hine
    refine Finset.sum_eq_zero fun j hj => ?_
    rw [if_neg (by simp only [Finset.mem_range] at hi hj; omega)]
  rw [Finset.sum_eq_single (a.length - 1) houter
    (fun h => absurd (Finset.mem_range.mpr (by omega)) h)]
  have hinner : ∀ j ∈ Finset.range b.length, j ≠ b.length - 1 →
      (if a.length - 1 + j = a.length + b.length - 2
        then a.getD (a.length - 1) 0 * b.getD j 0 else 0) = 0 := by
    intro j hj hjne
    rw [if_neg (by simp only [Finset.mem_range] at hj; omega)]
  rw [Finset.sum_eq_single (b.length - 1) hinner
    (fun h => absurd (Finset.mem_range.mpr (by omega)) h), if_pos (by omega)]

/-- Degree additivity of the naive product for well-formed nonzero
operands. -/
theorem mul_deg {p q : Poly} (hp : Wf p) (hq : Wf q) (hpz : ¬ p.IsZero)
    (hqz : ¬ q.IsZero) : (p.Mul q).deg = p.deg + q.deg := by
  have hla : 1 ≤ p.coef.length := List.length_pos.mpr hp.1
  have hlb : 1 ≤ q.coef.length := List.length_pos.mpr hq.1
  have hmlen : (mulCoef p.coef q.coef).length = p.coef.length + q.coef.length - 1 := by
    rw [mulCoef_length]
    omega
  have hlast : (mulCoef p.coef q.coef).getD ((mulCoef p.coef q.coef).length - 1) 0
      = p.coef.getD (p.coef.length - 1) 0 * q.coef.getD (q.coef.length - 1) 0 := by
    rw [hmlen, mulCoef, getD_map_range _ _ _ _ (by omega),
      show p.coef.length + q.coef.length - 1 - 1 = p.coef.length + q.coef.length - 2 from by
        omega]
    exact convEntry_last hp.1 hq.1
  have hne : (mulCoef p.coef q.coef).getD ((mulCoef p.coef q.coef).length - 1) 0 ≠ 0 := by
    rw [hlast]
    exact mul_ne_zero (wf_last_ne_zero hp hpz) (wf_last_ne_zero hq hqz)
  have hnonnil : mulCoef p.coef q.coef ≠ [] := by
    intro h
    rw [h] at hmlen
    simp at hmlen
    omega
  have hstrip : removeTrailingZeroes (mulCoef p.coef q.coef) = mulCoef p.coef q.coef :=
    removeTrailingZeroes_of_last_ne hnonnil hne
  show (newPolyNoReverse (mulCoef p.coef q.coef)).deg = p.deg + q.deg
  rw [newPolyNoReverse]
  simp only [Poly.deg, hstrip, hmlen]
  omega

/-- C2 (amended): in the exact idealization of float64 arithmetic, the
FFT-based `MulFast` pipeline produces exactly the coefficient slice of the
quadratic-time `Mul` (so the two products agree within every tolerance),
for all polynomials with nonempty coefficient slices (the invariant of
every constructor); the fast path is truncated to `deg p + deg q + 1`
entries before stripping.  The common degree is `deg p + deg q` provided
BOTH operands are nonzero; a zero operand collapses the product to the
zero polynomial of degree `0`, not `deg p + deg q`. -/
theorem C2_mul_fast (p q : Poly) :
    (p.coef ≠ [] → q.coef ≠ [] →
      p.MulFastCoef q = (p.Mul q).coef.map (Rat.cast : ℚ → ℝ)) ∧
    (Wf p → Wf q → ¬ p.IsZero → ¬ q.IsZero → (p.Mul q).deg = p.deg + q.deg) := by
  refine ⟨fun hp hq => ?_, fun hwp hwq hpz hqz => mul_deg hwp hwq hpz hqz⟩
  rw [Poly.MulFastCoef]
  by_cases hp0 : p.deg = 0
  · rw [if_pos hp0, mul_constant_left hp0 hq]
  · rw [if_neg hp0]
    by_cases hq0 : q.deg = 0
    · rw [if_pos hq0, mul_constant_right hq0 hp]
    · rw [if_neg hq0]
      dsimp only
      rw [fast_slice_eq p q hp hq, removeTrailingZeroesR_map_cast]
      rfl

/-- C2 counterexample (degree part): multiplying the zero polynomial by
`x` yields the zero polynomial of degree `0`, not `0 + 1`. -/
theorem C2_counterexample :
    (NewPoly [0]).deg = 0 ∧ (NewPoly [1, 0]).deg = 1 ∧
    ((NewPoly [0]).Mul (NewPoly [1, 0])).deg = 0 := by
  refine ⟨by norm_num [NewPoly, newPolyNoReverse, removeTrailingZeroes, stripRev, Poly.deg],
    by norm_num [NewPoly, newPolyNoReverse, removeTrailingZeroes, stripRev, Poly.deg], ?_⟩
  have hcoef : ((NewPoly [0]).Mul (NewPoly [1, 0])).coef = [0] := by
    norm_num [Poly.Mul, NewPoly, newPolyNoReverse, removeTrailingZeroes, stripRev,
      mulCoef, convEntry, List.range_succ, Finset.sum_range_succ]
  simp [Poly.deg, hcoef]

/-- C2 witness: `(x + 1)(x + 2)`: the fast and naive products coincide and
the degree is `1 + 1`. -/
theorem C2_witness :
    (NewPoly [1, 1]).coef ≠ [] ∧ (NewPoly [1, 2]).coef ≠ [] ∧
    Wf (NewPoly [1, 1]) ∧ Wf (NewPoly [1, 2]) ∧
    ¬ (NewPoly [1, 1]).IsZero ∧ ¬ (NewPoly [1, 2]).IsZero ∧
    (NewPoly [1, 1]).MulFastCoef (NewPoly [1, 2])
      = ((NewPoly [1, 1]).Mul (NewPoly [1, 2])).coef.map (Rat.cast : ℚ → ℝ) ∧
    ((NewPoly [1, 1]).Mul (NewPoly [1, 2])).deg
      = (NewPoly [1, 1]).deg + (NewPoly [1, 2]).deg := by
  have hp : (NewPoly [1, 1]).coef ≠ [] := by
    simp [NewPoly, newPolyNoReverse, removeTrailingZeroes, stripRev]
  have hq : (NewPoly [1, 2]).coef ≠ [] := by
    simp [NewPoly, newPolyNoReverse, removeTrailingZeroes, stripRev]
  have hwp : Wf (NewPoly [1, 1]) := by
    simp [Wf, NewPoly, newPolyNoReverse, removeTrailingZeroes, stripRev]
  have hwq : Wf (NewPoly [1, 2]) := by
    simp [Wf, NewPoly, newPolyNoReverse, removeTrailingZeroes, stripRev]
  have hpz : ¬ (NewPoly [1, 1]).IsZero := by
    norm_num [Poly.IsZero, Poly.deg, NewPoly, newPolyNoReverse, removeTrailingZeroes, stripRev]
  have hqz : ¬ (NewPoly [1, 2]).IsZero := by
    norm_num [Poly.IsZero, Poly.deg, NewPoly, newPolyNoReverse, removeTrailingZeroes, stripRev]
  exact ⟨hp, hq, hwp, hwq, hpz, hqz, (C2_mul_fast _ _).1 hp hq,
    (C2_mul_fast _ _).2 hwp hwq hpz hqz⟩

end Polygo
